import Mathlib

/-!
# QDownloader: a shallow embedding of `src/qdownloader.cpp`

The development models the resumable downloader `QDownloader` (Qt, C++) as
pure Lean functions over an explicit session state and proves or refutes the
properties of its specification.

Modelling conventions.

* `QString` is a list of characters.  The few Qt string and file-name
  functions the source calls (`QFileInfo::suffix`, `QFileInfo::completeBaseName`,
  `QString::number`, `QString::mid`, `QString::startsWith`, ...) are written out
  after the Qt documentation, for the Unix path separator `/`.
* The file system is the list of the paths that exist (`Disk`); paths are
  compared as strings.
* `qint64` and `int` values are integers.  A signed overflow is undefined in
  C++; the `qint64` additions are modelled with the two's complement
  wrap-around at 64 bits (`wrapInt64`), and the theorems say where they need
  the sum to fit.
* `qreal` is `QReal`: an exact rational or one of `+inf`, `-inf`, `NaN`, so that
  a division by zero behaves as it does for a C++ `double`.  The progress
  callback is given twice: `onProgressChangedDouble` rounds every conversion,
  product and quotient to IEEE 754 binary64 (`roundDouble`), as the program
  does; `onProgressChanged` is the same function in exact arithmetic, used
  where the rounding plays no part.
* What the environment decides (whether a file can be opened, how a HEAD
  request ends, the reading of the elapsed timer) is an explicit argument.
* The source is read for Qt 5.15 or later: the timer code for older versions
  does not compile (`Downloader::timerEvent`) and is left out.
-/

namespace QDownloader

/-! ## Strings -/

/-- A `QString`, as the list of its characters. -/
abbrev QString := List Char

/-- The string literal `QString::fromUtf8("...")`. -/
def QString.fromUtf8 (s : String) : QString := s.data

/-- The decimal digit `d` (for `d < 10`) as a character. -/
def digitChar : Nat → Char
  | 0 => '0'
  | 1 => '1'
  | 2 => '2'
  | 3 => '3'
  | 4 => '4'
  | 5 => '5'
  | 6 => '6'
  | 7 => '7'
  | 8 => '8'
  | _ => '9'

/-- The value of a decimal digit character (0 for any other character). -/
def digitVal (c : Char) : Nat :=
  if c = '1' then 1 else if c = '2' then 2 else if c = '3' then 3
  else if c = '4' then 4 else if c = '5' then 5 else if c = '6' then 6
  else if c = '7' then 7 else if c = '8' then 8 else if c = '9' then 9 else 0

/-- Decimal digits of `n`, most significant first; `fuel` bounds the number of
digits and `n + 1` is always enough. -/
def decimalDigits : Nat → Nat → QString
  | 0, _ => []
  | fuel + 1, n =>
    if n < 10 then [digitChar n]
    else decimalDigits fuel (n / 10) ++ [digitChar (n % 10)]

/-- The function `QString::number(i)` for a non-negative `i`. -/
def QString.number (n : Nat) : QString := decimalDigits (n + 1) n

/-- The function `QString::number(i)` (and `QString::arg(i)`) for a signed
integer: a minus sign, then the digits of the absolute value. -/
def QString.numberInt (z : Int) : QString :=
  if z < 0 then '-' :: QString.number (-z).toNat else QString.number z.toNat

/-- Reads a decimal digit string back. -/
def parseDecimal (cs : QString) : Nat :=
  cs.foldl (fun acc c => acc * 10 + digitVal c) 0

/-- Splits a string at the last occurrence of `c`: `none` when `c` does not
occur, otherwise what precedes and what follows that occurrence. -/
def splitLast (c : Char) : QString → Option (QString × QString)
  | [] => none
  | x :: xs =>
    match splitLast c xs with
    | some (a, b) => some (x :: a, b)
    | none => if x = c then some ([], xs) else none

/-! ## File names (`QFileInfo`) -/

/-- The function `QFileInfo::fileName`: the path without its directory part,
that is what follows the last `/`. -/
def QFileInfo.fileName (p : QString) : QString :=
  match splitLast '/' p with
  | some (_, b) => b
  | none => p

/-- The function `QFileInfo::suffix`: the characters of the file name after its
last `.`, empty when the file name has no `.`. -/
def QFileInfo.suffix (p : QString) : QString :=
  match splitLast '.' (QFileInfo.fileName p) with
  | some (_, b) => b
  | none => []

/-- The function `QFileInfo::completeBaseName`: the characters of the file name
up to its last `.`, the whole file name when it has no `.`. -/
def QFileInfo.completeBaseName (p : QString) : QString :=
  match splitLast '.' (QFileInfo.fileName p) with
  | some (a, _) => a
  | none => QFileInfo.fileName p

/-! ## The file system -/

/-- The file system: the paths of the files that exist. -/
abbrev Disk := List QString

/-- The function `QFile::exists(path)`. -/
def QFile.exists (disk : Disk) (path : QString) : Bool := decide (path ∈ disk)

/-- The pattern `"%1/%2"` filled with a directory and a name. -/
def joinPath (dirPath name : QString) : QString :=
  dirPath ++ QString.fromUtf8 "/" ++ name

/-! ## `QDownloader::uniqueFileName` -/

/-- The candidate that the loop of `uniqueFileName` probes for counter `i`:
the pattern `"%1/%2%3).%4"` filled with the directory, the base name that
already ends in `" ("`, the counter and the extension. -/
def candidatePath (dirPath baseName suffix : QString) (i : Nat) : QString :=
  dirPath ++ QString.fromUtf8 "/" ++ baseName ++ QString.number i
    ++ QString.fromUtf8 ")." ++ suffix

/-- The loop `while (QFile::exists(candidate i)) ++i;` of `uniqueFileName`,
started at counter `i`.  `fuel` bounds the number of iterations; the number of
files on the disk is enough (`probeLoop_spec`), so the bound is never what
ends the loop. -/
def probeLoop (disk : Disk) (dirPath baseName suffix : QString) : Nat → Nat → Nat
  | 0, i => i
  | fuel + 1, i =>
    if QFile.exists disk (candidatePath dirPath baseName suffix i) then
      probeLoop disk dirPath baseName suffix fuel (i + 1)
    else i

/-- The function `QDownloader::uniqueFileName(value, dirPath, postfix)`. -/
def uniqueFileName (disk : Disk) (value dirPath postfixStr : QString) : QString :=
  if value.isEmpty || dirPath.isEmpty || postfixStr.isEmpty then []
  else
    let suffix := QFileInfo.suffix value
    let baseName := QFileInfo.completeBaseName value
    let baseName :=
      if QFile.exists disk (joinPath dirPath value) then
        let baseName := baseName ++ QString.fromUtf8 " ("
        let i := probeLoop disk dirPath baseName suffix disk.length 1
        baseName ++ (QString.number i ++ [')'])
      else baseName
    baseName ++ QString.fromUtf8 "." ++ suffix ++ QString.fromUtf8 "." ++ postfixStr

/-! ## Numbers -/

/-- The result of a `qint64` addition: the two's complement wrap-around of
the exact sum at 64 bits. -/
def wrapInt64 (x : Int) : Int := (x + 2 ^ 63) % 2 ^ 64 - 2 ^ 63

/-- A `qreal` (C++ `double`) without rounding: an exact rational, an infinity
or NaN. -/
inductive QReal where
  | val (q : ℚ)
  | posInf
  | negInf
  | nan
  deriving DecidableEq

/-- The conversion `qreal(n)` of an integer. -/
def QReal.ofInt (z : Int) : QReal := .val z

/-- The comparison `a < b` of two doubles: false as soon as one is NaN. -/
def QReal.lt : QReal → QReal → Bool
  | .nan, _ => false
  | _, .nan => false
  | .val a, .val b => decide (a < b)
  | .val _, .posInf => true
  | .val _, .negInf => false
  | .posInf, _ => false
  | .negInf, .negInf => false
  | .negInf, _ => true

/-- An infinity of the sign of `q`, NaN for `q = 0`. -/
def QReal.infOfSign (q : ℚ) : QReal :=
  if 0 < q then .posInf else if q < 0 then .negInf else .nan

/-- The product `a * b` of two doubles. -/
def QReal.mul : QReal → QReal → QReal
  | .nan, _ => .nan
  | _, .nan => .nan
  | .val a, .val b => .val (a * b)
  | .val a, .posInf => QReal.infOfSign a
  | .val a, .negInf => QReal.infOfSign (-a)
  | .posInf, .val b => QReal.infOfSign b
  | .negInf, .val b => QReal.infOfSign (-b)
  | .posInf, .posInf => .posInf
  | .posInf, .negInf => .negInf
  | .negInf, .posInf => .negInf
  | .negInf, .negInf => .posInf

/-- The quotient `a / b` of two doubles; the zero divisors that occur in the
program are conversions of the integer 0, hence positive zeros. -/
def QReal.div : QReal → QReal → QReal
  | .nan, _ => .nan
  | _, .nan => .nan
  | .val a, .val b => if b = 0 then QReal.infOfSign a else .val (a / b)
  | .val _, .posInf => .val 0
  | .val _, .negInf => .val 0
  | .posInf, .val b => if b < 0 then .negInf else .posInf
  | .negInf, .val b => if b < 0 then .posInf else .negInf
  | .posInf, .posInf => .nan
  | .posInf, .negInf => .nan
  | .negInf, .posInf => .nan
  | .negInf, .negInf => .nan

/-- The template `qMin(a, b)`: `(a < b) ? a : b`. -/
def qMin (a b : QReal) : QReal := if QReal.lt a b then a else b

/-- The template `qMax(a, b)`: `(a < b) ? b : a`. -/
def qMax (a b : QReal) : QReal := if QReal.lt a b then b else a

/-- The template `qBound(min, val, max)`: `qMax(min, qMin(max, val))`. -/
def qBound (lo v hi : QReal) : QReal := qMax lo (qMin hi v)

/-- Rounds to the nearest integer, a tie to the even one. -/
def roundHalfEven (x : ℚ) : Int :=
  if x - ⌊x⌋ < 1 / 2 then ⌊x⌋
  else if 1 / 2 < x - ⌊x⌋ then ⌊x⌋ + 1
  else if ⌊x⌋ % 2 = 0 then ⌊x⌋ else ⌊x⌋ + 1

/-- The `double` that an exact value is rounded to: IEEE 754 binary64, round
to nearest, ties to even.  With `2 ^ k <= |x| < 2 ^ (k + 1)` the result is the
nearest multiple of `2 ^ (k - 52)`; below `2 ^ (-1022)` the spacing stays
`2 ^ (-1074)` (subnormal numbers), and a result of `2 ^ 1024` or more is an
infinity. -/
def roundDouble (x : ℚ) : QReal :=
  if x = 0 then .val 0
  else
    let k : Int := max (Int.log 2 |x|) (-1022)
    let y : ℚ := (roundHalfEven (x / 2 ^ (k - 52)) : ℚ) * 2 ^ (k - 52)
    if (2 : ℚ) ^ (1024 : Int) ≤ |y| then (if 0 < x then .posInf else .negInf) else .val y

/-- Rounds an exact result to `double`; infinities and NaN stay. -/
def QReal.round : QReal → QReal
  | .val q => roundDouble q
  | .posInf => .posInf
  | .negInf => .negInf
  | .nan => .nan

/-- The conversion `qreal(n)` of a `qint64`, rounded to `double`. -/
def QReal.ofIntDouble (z : Int) : QReal := roundDouble z

/-- The product `a * b` in `double` arithmetic. -/
def QReal.mulDouble (a b : QReal) : QReal := (QReal.mul a b).round

/-- The quotient `a / b` in `double` arithmetic. -/
def QReal.divDouble (a b : QReal) : QReal := (QReal.div a b).round

/-! ## More strings -/

/-- Lower-case form of a string, for the case-insensitive comparisons. -/
def QString.toLower (s : QString) : QString := s.map Char.toLower

/-- The function `s.startsWith(p, Qt::CaseInsensitive)`. -/
def QString.startsWithCI (s p : QString) : Bool :=
  (QString.toLower p).isPrefixOf (QString.toLower s)

/-- The function `s.startsWith(c)` for a character. -/
def QString.startsWithChar (s : QString) (c : Char) : Bool :=
  match s with
  | [] => false
  | x :: _ => x == c

/-- The function `s.indexOf(p, from)` with the default case sensitivity
`Qt::CaseSensitive`, for a string `s` whose first character has the position
`i`: the index of the first occurrence, `-1` when there is none. -/
def QString.indexOf (p : QString) : QString → Nat → Int
  | [], i => if p.isEmpty then (i : Int) else -1
  | c :: cs, i =>
    if p.isPrefixOf (c :: cs) then (i : Int)
    else QString.indexOf p cs (i + 1)

/-- The function `s.mid(position)`: the string from `position` to the end. -/
def QString.mid (s : QString) (position : Int) : QString :=
  if position < 0 then s else s.drop position.toNat

/-! ## Urls and remote file information -/

/-- A `QUrl`, by what the program observes of it. -/
structure QUrl where
  /-- The result of `isValid()`. -/
  isValid : Bool
  /-- The result of `scheme()`. -/
  scheme : QString
  /-- The authority part. -/
  host : QString
  /-- The result of `path()`. -/
  path : QString
  deriving DecidableEq

/-- The empty url `QUrl()`, also what `clear()` leaves: it is not valid. -/
def QUrl.empty : QUrl := ⟨false, [], [], []⟩

/-- The function `QUrl::fileName`: the path after its last `/`. -/
def QUrl.fileName (u : QUrl) : QString :=
  match splitLast '/' u.path with
  | some (_, b) => b
  | none => u.path

/-- The struct `QDownloader::FileInfo`. -/
structure FileInfo where
  fileName : QString := []
  fileType : QString := []
  fileSize : Int := 0
  deriving DecidableEq

/-- The struct `QDownloader::Speed`. -/
structure Speed where
  value : QReal := .val 0
  unit : QString := []
  deriving DecidableEq

/-- How one HEAD request of `getRemoteFileInfo` ends. -/
inductive HeadReply where
  /-- The reply finished with `QNetworkReply::NoError`, with these values of
  the content type, content length and content disposition headers. -/
  | finished (contentType : QString) (contentLength : Int) (contentDisposition : QString)
  /-- The reply finished with an error. -/
  | failed
  /-- The deadline of the attempt expired before the reply finished. -/
  | timedOut
  deriving DecidableEq

/-- What a call of `getRemoteFileInfo` leaves behind. -/
structure HeadResult where
  /-- The returned `FileInfo`. -/
  info : FileInfo
  /-- The cell `*ok` after the call; `none` when `ok` is the null pointer. -/
  ok : Option Bool
  /-- The number of HEAD requests that were issued. -/
  requests : Nat
  deriving DecidableEq

/-- The handler connected to `QNetworkReply::finished` in `getRemoteFileInfo`
for a reply without error: it fills the file information.  The call
`disposition.indexOf(QString::fromUtf8("filename="), Qt::CaseInsensitive)`
passes the enumerator where `indexOf(str, from, cs)` takes `from`: the search
starts at position `Qt::CaseInsensitive = 0` and is case sensitive. -/
def headSuccess (val : QUrl) (headFileInfo : FileInfo)
    (contentType : QString) (contentLength : Int) (disposition : QString) : FileInfo :=
  let fileSize := if contentLength ≤ 0 then 0 else contentLength
  let index := QString.indexOf (QString.fromUtf8 "filename=") disposition 0
  let fileName := QString.mid disposition (index + 9)
  { headFileInfo with
    fileType := contentType
    fileSize := fileSize
    fileName := if fileName.isEmpty then val.fileName else fileName }

/-- The loop `for (int i = 0; i != tryTimes; ++i)` of `getRemoteFileInfo`, with
`remaining` iterations to go at attempt `i`; `replies i` is how attempt `i`
ends.  A reply that finishes, with or without error, sets `ready` and ends the
loop; only an expired deadline leads to the next attempt. -/
def headLoop (val : QUrl) (replies : Nat → HeadReply) :
    Nat → Nat → FileInfo → Option Bool → HeadResult
  | 0, i, headFileInfo, ok => ⟨headFileInfo, ok, i⟩
  | remaining + 1, i, headFileInfo, ok =>
    match replies i with
    | .finished contentType contentLength disposition =>
      ⟨headSuccess val headFileInfo contentType contentLength disposition,
        ok.map (fun _ => true), i + 1⟩
    | .failed =>
      ⟨{ headFileInfo with fileName := val.fileName }, ok.map (fun _ => false), i + 1⟩
    | .timedOut => headLoop val replies remaining (i + 1) headFileInfo ok

/-- The function `QDownloader::getRemoteFileInfo(val, tryTimes, tryTimeout, ok)`.
The cell `ok` is `none` for a null pointer and `some b` for a pointer to a
`bool` that holds `b`. -/
def getRemoteFileInfo (val : QUrl) (tryTimes tryTimeout : Int) (ok : Option Bool)
    (replies : Nat → HeadReply) : HeadResult :=
  if !val.isValid then ⟨{}, ok.map (fun _ => false), 0⟩
  else if tryTimes < 1 then ⟨{}, ok.map (fun _ => false), 0⟩
  else if tryTimeout < 1000 then ⟨{}, ok.map (fun _ => false), 0⟩
  else headLoop val replies tryTimes.toNat 0 {} ok

/-- The default `_WWX190_DL_DEFAULT_DOWNLOADING_TRY_TIMES`. -/
def defaultTryTimes : Int := 5

/-- The default `_WWX190_DL_DEFAULT_DOWNLOADING_TIMEOUT`. -/
def defaultTimeout : Int := 3000

/-- The default `_WWX190_DL_DEFAULT_DOWNLOADING_POSTFIX`. -/
def defaultDownloadingPostfix : QString := QString.fromUtf8 "downloading"

/-! ## The session state -/

/-- The mode of `QFile::open`: `WriteOnly | Truncate` or `WriteOnly | Append`. -/
inductive OpenMode where
  | truncate
  | append
  deriving DecidableEq

/-- The member `m_file`: its file name and, while it is open, its mode. -/
structure QFile where
  fileName : QString := []
  openMode : Option OpenMode := none
  deriving DecidableEq

/-- The GET request behind `m_reply`. -/
structure QNetworkRequest where
  /-- The requested url. -/
  url : QUrl
  /-- The raw header `Range`, when it was set. -/
  range : Option QString
  deriving DecidableEq

/-- The members of a `QDownloader` and the file system it works on. -/
structure State where
  m_url : QUrl := QUrl.empty
  m_file : QFile := {}
  /-- The in-flight request; `none` for `nullptr`. -/
  m_reply : Option QNetworkRequest := none
  m_saveDirectory : QString := []
  m_downloadingPostfix : QString := defaultDownloadingPostfix
  m_progress : QReal := .val 0
  m_timeout : Int := defaultTimeout
  m_timeoutTimerId : Int := 0
  m_speed : Speed := {}
  m_downloading : Bool := false
  m_paused : Bool := false
  m_receivedBytes : Int := 0
  m_totalBytes : Int := 0
  m_currentReceivedBytes : Int := 0
  m_bytesreceived_timer : Int := 0
  m_fileInfo : FileInfo := {}
  /-- The files that exist. -/
  disk : Disk := []
  deriving DecidableEq

/-- The constructor: the save directory is the application directory. -/
def State.init (applicationDirPath : QString) (disk : Disk) : State :=
  { m_saveDirectory := applicationDirPath, disk := disk }

/-- The call `m_file.setFileName(name)`, on a closed file. -/
def setFileName (s : State) (name : QString) : State :=
  { s with m_file := { s.m_file with fileName := name } }

/-- The call `m_file.close()` guarded by `m_file.isOpen()`. -/
def closeFile (s : State) : State :=
  { s with m_file := { s.m_file with openMode := none } }

/-- The call `m_file.exists()`. -/
def fileExists (s : State) : Bool := QFile.exists s.disk s.m_file.fileName

/-- The call `m_file.remove()`: the file is closed and deleted. -/
def removeFile (s : State) : State :=
  { s with
    m_file := { s.m_file with openMode := none }
    disk := s.disk.filter (fun p => p ≠ s.m_file.fileName) }

/-- The call `m_file.open(QFile::WriteOnly | mode)` when it succeeds: the file
exists afterwards. -/
def openFile (s : State) (mode : OpenMode) : State :=
  { s with
    m_file := { s.m_file with openMode := some mode }
    disk := if QFile.exists s.disk s.m_file.fileName then s.disk
            else s.m_file.fileName :: s.disk }

/-- The call `m_file.rename(newName)`: it fails when the file does not exist
or `newName` does; otherwise the file carries the new name. -/
def renameFile (s : State) (newName : QString) : State :=
  if fileExists s && !QFile.exists s.disk newName then
    { s with
      m_file := { fileName := newName, openMode := none }
      disk := newName :: s.disk.filter (fun p => p ≠ s.m_file.fileName) }
  else closeFile s

/-- The function `QDownloader::breakpointSupported`. -/
def breakpointSupported (s : State) : Bool :=
  QString.startsWithCI s.m_url.scheme (QString.fromUtf8 "http")

/-- The function `QDownloader::resetData`. -/
def resetData (s : State) : State :=
  { s with
    m_url := QUrl.empty
    m_progress := .val 0
    m_speed := { value := .val 0, unit := [] }
    m_downloading := false
    m_receivedBytes := 0
    m_totalBytes := 0
    m_currentReceivedBytes := 0
    m_fileInfo := { fileName := [], fileType := [], fileSize := 0 }
    m_paused := false
    m_bytesreceived_timer := 0
    m_timeoutTimerId := 0 }

/-- The function `QDownloader::start_internal`; `openOk` is the result of
`m_file.open`. -/
def start_internal (s : State) (openOk : Bool) : State :=
  if s.m_downloading then s
  else
    let s := closeFile s
    let append := breakpointSupported s && decide (s.m_currentReceivedBytes > 0)
    let s :=
      if !append then
        setFileName s (joinPath s.m_saveDirectory
          (uniqueFileName s.disk s.m_fileInfo.fileName s.m_saveDirectory
            s.m_downloadingPostfix))
      else s
    let s := if decide (s.m_currentReceivedBytes ≤ 0) && fileExists s then removeFile s else s
    if !openOk then s
    else
      let s := openFile s (if append then .append else .truncate)
      { s with
        m_downloading := true
        m_paused := false
        m_reply := some
          { url := s.m_url
            range := if append then
                some (QString.fromUtf8 "bytes=" ++ QString.numberInt s.m_currentReceivedBytes
                  ++ QString.fromUtf8 "-")
              else none } }

/-- The function `QDownloader::stopDownload`. -/
def stopDownload (s : State) : State :=
  let s := { s with m_reply := none }
  let s := closeFile s
  { s with m_downloading := false }

/-- The function `QDownloader::stop`. -/
def stop (s : State) : State :=
  let s := stopDownload s
  let s :=
    if decide (QFileInfo.suffix s.m_file.fileName = s.m_downloadingPostfix) && fileExists s then
      removeFile s
    else s
  resetData s

/-- The function `QDownloader::start`; `replies` is how the HEAD requests of
`getRemoteFileInfo` end and `openOk` the result of `m_file.open`. -/
def start (s : State) (replies : Nat → HeadReply) (openOk : Bool) : State :=
  if s.m_paused then s
  else if s.m_downloading then s
  else if !s.m_url.isValid || s.m_saveDirectory.isEmpty then s
  else
    let s := { s with m_fileInfo :=
      (getRemoteFileInfo s.m_url defaultTryTimes defaultTimeout none replies).info }
    start_internal s openOk

/-- The function `QDownloader::pause`. -/
def pause (s : State) : State :=
  if !s.m_downloading || s.m_paused then s
  else if !breakpointSupported s then stop s
  else
    let s := { s with m_paused := true }
    let s := stopDownload s
    { s with m_currentReceivedBytes := wrapInt64 (s.m_currentReceivedBytes + s.m_receivedBytes) }

/-- The function `QDownloader::resume`. -/
def resume (s : State) (openOk : Bool) : State :=
  if s.m_downloading || !s.m_paused then s
  else start_internal { s with m_paused := false } openOk

/-- The function `QDownloader::onProgressChanged` in exact arithmetic, without
the rounding of `double` (see `onProgressChangedDouble`); `elapsed` is the
reading of `m_speedTimer.elapsed()`. -/
def onProgressChanged (s : State) (bytesReceived bytesTotal elapsed : Int) : State :=
  if !s.m_downloading then s
  else
    let progress := QReal.div
      (QReal.ofInt (wrapInt64 (bytesReceived + s.m_currentReceivedBytes)))
      (QReal.ofInt (wrapInt64 (bytesTotal + s.m_currentReceivedBytes)))
    let value := QReal.div (QReal.mul (QReal.ofInt bytesReceived) (.val 1000))
      (QReal.ofInt elapsed)
    let speed : Speed :=
      if QReal.lt value (.val 1024) then
        { value := value, unit := QString.fromUtf8 "B/s" }
      else if QReal.lt value (.val (1024 * 1024)) then
        { value := QReal.div value (.val 1024), unit := QString.fromUtf8 "KB/s" }
      else
        { value := QReal.div value (.val (1024 * 1024)), unit := QString.fromUtf8 "MB/s" }
    { s with
      m_receivedBytes := bytesReceived
      m_totalBytes := bytesTotal
      m_progress := progress
      m_speed := speed }

/-- The function `QDownloader::onProgressChanged` in `double` arithmetic:
every conversion `qreal(...)`, the product with `1000.0` and every quotient
is rounded to binary64; the constants `1000.0`, `1024.0` and
`1024.0 * 1024.0` are doubles.  `elapsed` is the reading of
`m_speedTimer.elapsed()`. -/
def onProgressChangedDouble (s : State) (bytesReceived bytesTotal elapsed : Int) : State :=
  if !s.m_downloading then s
  else
    let progress := QReal.divDouble
      (QReal.ofIntDouble (wrapInt64 (bytesReceived + s.m_currentReceivedBytes)))
      (QReal.ofIntDouble (wrapInt64 (bytesTotal + s.m_currentReceivedBytes)))
    let value := QReal.divDouble (QReal.mulDouble (QReal.ofIntDouble bytesReceived) (.val 1000))
      (QReal.ofIntDouble elapsed)
    let speed : Speed :=
      if QReal.lt value (.val 1024) then
        { value := value, unit := QString.fromUtf8 "B/s" }
      else if QReal.lt value (.val (1024 * 1024)) then
        { value := QReal.divDouble value (.val 1024), unit := QString.fromUtf8 "KB/s" }
      else
        { value := QReal.divDouble value (.val (1024 * 1024)),
          unit := QString.fromUtf8 "MB/s" }
    { s with
      m_receivedBytes := bytesReceived
      m_totalBytes := bytesTotal
      m_progress := progress
      m_speed := speed }

/-- The function `QDownloader::progress`. -/
def progress (s : State) : QReal := qBound (.val 0) s.m_progress (.val 1)

/-- The function `QDownloader::speed`. -/
def speed (s : State) : Speed := s.m_speed

/-- What the finished reply tells `onFinished`. -/
structure ReplyOutcome where
  /-- The redirection target attribute, already resolved against the url of the
  reply; `none` when the attribute is not valid. -/
  redirect : Option QUrl
  /-- Whether `m_reply->error()` differs from `QNetworkReply::NoError`. -/
  error : Bool
  deriving DecidableEq

/-- The function `QDownloader::onFinished`, the slot of
`QNetworkAccessManager::finished`.  It dereferences `m_reply`: the result is
`none` when `m_reply` is null.  `replies` and `openOk` serve the restart after
a redirect. -/
def onFinished (s : State) (reply : ReplyOutcome) (replies : Nat → HeadReply)
    (openOk : Bool) : Option State :=
  match s.m_reply with
  | none => none
  | some _ =>
    let s := { s with m_downloading := false }
    let s := closeFile s
    if s.m_paused then some s
    else
      match reply.redirect with
      | some target =>
        let s := removeFile s
        let s := { s with m_url := target }
        let fi := (getRemoteFileInfo s.m_url defaultTryTimes defaultTimeout none replies).info
        let s := { s with m_fileInfo :=
          { s.m_fileInfo with fileType := fi.fileType, fileSize := fi.fileSize } }
        let s := { s with m_reply := none }
        some (start_internal s openOk)
      | none =>
        let s :=
          if !reply.error then
            renameFile s (joinPath s.m_saveDirectory
              (QFileInfo.completeBaseName s.m_file.fileName))
          else removeFile s
        let s := { s with m_reply := none }
        some (resetData s)

/-- The function `QDownloader::setUrl`. -/
def setUrl (s : State) (value : QUrl) : State :=
  if !value.isValid then s
  else if s.m_url ≠ value then { s with m_url := value } else s

/-- The function `QDownloader::setSaveDirectory` (on Unix, where the native
separator is `/`); directories are not part of the file system model. -/
def setSaveDirectory (s : State) (value : QString) : State :=
  if value.isEmpty then s
  else if s.m_saveDirectory ≠ value then { s with m_saveDirectory := value } else s

/-- The function `QDownloader::timeout`. -/
def timeout (s : State) : Int := max s.m_timeout 0

/-- The function `QDownloader::setTimeout`. -/
def setTimeout (s : State) (value : Int) : State :=
  if value < 0 then s
  else if s.m_timeout ≠ value then { s with m_timeout := value } else s

/-- The function `QDownloader::downloadingPostfix`. -/
def downloadingPostfix (s : State) : QString := s.m_downloadingPostfix

/-- The function `QDownloader::setDownloadingPostfix`. -/
def setDownloadingPostfix (s : State) (val : QString) : State :=
  if val.isEmpty then s
  else if s.m_downloadingPostfix ≠ val then
    if QString.startsWithChar s.m_downloadingPostfix '.' then
      { s with m_downloadingPostfix := QString.mid val 1 }
    else
      { s with m_downloadingPostfix := val }
  else s

/-- The network requests that a call of `start` issues: the HEAD requests of
`getRemoteFileInfo` and the GET request of `start_internal`.  The three guards
of `start` return before either; `start_internal` reaches
`m_manager.get(request)` only when the file could be opened. -/
def startRequests (s : State) (replies : Nat → HeadReply) (openOk : Bool) : Nat × Nat :=
  if s.m_paused then (0, 0)
  else if s.m_downloading then (0, 0)
  else if !s.m_url.isValid || s.m_saveDirectory.isEmpty then (0, 0)
  else
    ((getRemoteFileInfo s.m_url defaultTryTimes defaultTimeout none replies).requests,
      if openOk then 1 else 0)

/-! ## The session as a state machine -/

/-- What can happen to a session: a call of a public slot, or a signal of the
in-flight reply, each with what the environment decides on that occasion. -/
inductive Event where
  | setUrl (value : QUrl)
  | setSaveDirectory (value : QString)
  | setTimeout (value : Int)
  | setDownloadingPostfix (val : QString)
  | start (replies : Nat → HeadReply) (openOk : Bool)
  | pause
  | resume (openOk : Bool)
  | stop
  /-- The signal `downloadProgress` of the reply. -/
  | progressChanged (bytesReceived bytesTotal elapsed : Int)
  /-- The signal `finished` of the network access manager. -/
  | finished (reply : ReplyOutcome) (replies : Nat → HeadReply) (openOk : Bool)

/-- Whether the event lets every `m_file.open` it reaches succeed. -/
def Event.opensFile : Event → Bool
  | .start _ openOk => openOk
  | .resume openOk => openOk
  | .finished _ _ openOk => openOk
  | _ => true

/-- The state after an event; `none` when `onFinished` meets a null `m_reply`. -/
def step (s : State) : Event → Option State
  | .setUrl value => some (setUrl s value)
  | .setSaveDirectory value => some (setSaveDirectory s value)
  | .setTimeout value => some (setTimeout s value)
  | .setDownloadingPostfix val => some (setDownloadingPostfix s val)
  | .start replies openOk => some (start s replies openOk)
  | .pause => some (pause s)
  | .resume openOk => some (resume s openOk)
  | .stop => some (stop s)
  | .progressChanged bytesReceived bytesTotal elapsed =>
    some (onProgressChanged s bytesReceived bytesTotal elapsed)
  | .finished reply replies openOk => onFinished s reply replies openOk

/-- The state after a sequence of events. -/
def run (s : State) : List Event → Option State
  | [] => some s
  | e :: es =>
    match step s e with
    | some s1 => run s1 es
    | none => none

/-- The transfer fields hold the values that `resetData` gives them: no bytes
of this run or of earlier runs, progress 0, speed 0 without unit, empty file
information. -/
def transferFieldsDefault (s : State) : Prop :=
  s.m_receivedBytes = 0 ∧ s.m_totalBytes = 0 ∧ s.m_currentReceivedBytes = 0 ∧
  s.m_progress = .val 0 ∧ s.m_speed = { value := .val 0, unit := [] } ∧
  s.m_fileInfo = { fileName := [], fileType := [], fileSize := 0 }

/-- The property that the events keep while every `m_file.open` succeeds: an
idle session has default transfer fields, and a request is in flight only in
a session that is downloading and not paused. -/
def idleInvariant (s : State) : Prop :=
  (s.m_downloading = false → s.m_paused = false → transferFieldsDefault s) ∧
  (s.m_reply ≠ none → s.m_downloading = true ∧ s.m_paused = false)

/-! ## Example sessions -/

/-- The url `https://host/file.zip`. -/
def fileZipUrl : QUrl :=
  ⟨true, QString.fromUtf8 "https", QString.fromUtf8 "host", QString.fromUtf8 "/file.zip"⟩

/-- The url `https://host/README`. -/
def readmeUrl : QUrl :=
  ⟨true, QString.fromUtf8 "https", QString.fromUtf8 "host", QString.fromUtf8 "/README"⟩

/-- The url `https://mirror/file.zip`, used as a redirection target. -/
def mirrorUrl : QUrl :=
  ⟨true, QString.fromUtf8 "https", QString.fromUtf8 "mirror", QString.fromUtf8 "/file.zip"⟩

/-- A HEAD reply that reports a length of 1000 bytes and no name. -/
def headOk : Nat → HeadReply := fun _ => .finished [] 1000 []

/-- A freshly constructed downloader in the directory `/app` with an empty
file system. -/
def freshSession : State := State.init (QString.fromUtf8 "/app") []

/-- The session after `setUrl(https://host/file.zip)` and `start()`. -/
def startedSession : State := start (setUrl freshSession fileZipUrl) headOk true

/-- The session after it received 400 of 1000 bytes, was paused and was
resumed. -/
def resumedSession : State :=
  resume (pause (onProgressChanged startedSession 400 1000 10)) true

/-- The url `ftp://host/file.zip`, for which `breakpointSupported()` is false. -/
def ftpUrl : QUrl :=
  ⟨true, QString.fromUtf8 "ftp", QString.fromUtf8 "host", QString.fromUtf8 "/file.zip"⟩

/-- The session after `setUrl(ftp://host/file.zip)` and `start()`. -/
def ftpSession : State := start (setUrl freshSession ftpUrl) headOk true

/-- The session after `setDownloadingPostfix("part.tmp")`,
`setUrl(ftp://host/file.zip)` and `start()`. -/
def dottedSuffixSession : State :=
  start (setUrl (setDownloadingPostfix freshSession (QString.fromUtf8 "part.tmp")) ftpUrl)
    headOk true

/-- The session after `setUrl(ftp://host/file.zip)`, `start()` and, while the
transfer runs, `setDownloadingPostfix("part")`. -/
def changedSuffixSession : State :=
  setDownloadingPostfix ftpSession (QString.fromUtf8 "part")

/-- A directory that holds `example.ext`, `example (1).ext` and
`example (2).ext`. -/
def exampleDisk : Disk :=
  [QString.fromUtf8 "dir/example.ext", QString.fromUtf8 "dir/example (1).ext",
   QString.fromUtf8 "dir/example (2).ext"]

/-! ## Facts about strings and file names -/

theorem digitVal_digitChar (d : Nat) (h : d < 10) : digitVal (digitChar d) = d := by
  interval_cases d <;> rfl

theorem parseDecimal_snoc (a : QString) (c : Char) :
    parseDecimal (a ++ [c]) = parseDecimal a * 10 + digitVal c := by
  simp [parseDecimal, List.foldl_append]

/-- Reading back the digits of `n` gives `n`, as soon as the fuel exceeds `n`. -/
theorem parseDecimal_decimalDigits :
    ∀ (fuel n : Nat), n < fuel → parseDecimal (decimalDigits fuel n) = n
  | 0, n, h => absurd h (Nat.not_lt_zero n)
  | fuel + 1, n, h => by
    unfold decimalDigits
    split_ifs with h10
    · simp [parseDecimal, digitVal_digitChar n h10]
    · have hlt : n / 10 < fuel := by omega
      rw [parseDecimal_snoc, parseDecimal_decimalDigits fuel (n / 10) hlt,
        digitVal_digitChar (n % 10) (Nat.mod_lt n (by norm_num))]
      omega

theorem parseDecimal_number (n : Nat) : parseDecimal (QString.number n) = n :=
  parseDecimal_decimalDigits (n + 1) n (Nat.lt_succ_self n)

/-- Two different counters have different decimal representations. -/
theorem number_injective : Function.Injective QString.number := by
  intro a b hab
  have h := congrArg parseDecimal hab
  rwa [parseDecimal_number, parseDecimal_number] at h

/-- Two different counters give two different candidate paths. -/
theorem candidatePath_injective (dirPath baseName suffix : QString) :
    Function.Injective (candidatePath dirPath baseName suffix) := by
  intro a b hab
  unfold candidatePath at hab
  have h1 := List.append_cancel_right hab
  have h2 := List.append_cancel_right h1
  exact number_injective (List.append_cancel_left h2)

theorem splitLast_eq_none (c : Char) : ∀ s : QString, splitLast c s = none ↔ c ∉ s
  | [] => by simp [splitLast]
  | x :: xs => by
    have ih := splitLast_eq_none c xs
    unfold splitLast
    cases hxs : splitLast c xs with
    | none =>
      have hn : c ∉ xs := ih.mp hxs
      by_cases hx : x = c
      · simp [hx]
      · have hx2 : ¬ c = x := fun h => hx h.symm
        simp [hx, hx2, hn]
    | some ab =>
      have hn : ¬ c ∉ xs := fun h => by
        have := ih.mpr h
        rw [hxs] at this
        exact Option.noConfusion this
      have hm : c ∈ xs := by
        by_contra h
        exact hn h
      simp [hm]

/-- What `splitLast` returns is the split at the last occurrence. -/
theorem splitLast_eq_some (c : Char) :
    ∀ (s a b : QString), splitLast c s = some (a, b) → s = a ++ c :: b ∧ c ∉ b
  | [], a, b, h => by simp [splitLast] at h
  | x :: xs, a, b, h => by
    unfold splitLast at h
    cases hxs : splitLast c xs with
    | none =>
      rw [hxs] at h
      by_cases hx : x = c
      · simp [hx] at h
        obtain ⟨ha, hb⟩ := h
        subst ha
        subst hb
        exact ⟨by simp [hx], (splitLast_eq_none c xs).mp hxs⟩
      · simp [hx] at h
    | some ab =>
      obtain ⟨a1, b1⟩ := ab
      rw [hxs] at h
      simp at h
      obtain ⟨ha, hb⟩ := h
      subst ha
      subst hb
      obtain ⟨h1, h2⟩ := splitLast_eq_some c xs a1 b1 hxs
      exact ⟨by simp [h1], h2⟩

/-- For a name without directory part, `completeBaseName` and `suffix` are the
two sides of its last `.`. -/
theorem fileInfo_split_at_last_dot (value : QString) (hs : '/' ∉ value) (hd : '.' ∈ value) :
    value = QFileInfo.completeBaseName value ++ '.' :: QFileInfo.suffix value ∧
      '.' ∉ QFileInfo.suffix value := by
  have hf : QFileInfo.fileName value = value := by
    unfold QFileInfo.fileName
    rw [(splitLast_eq_none '/' value).mpr hs]
  unfold QFileInfo.completeBaseName QFileInfo.suffix
  rw [hf]
  cases hsp : splitLast '.' value with
  | none => exact absurd hd ((splitLast_eq_none '.' value).mp hsp)
  | some ab =>
    obtain ⟨a, b⟩ := ab
    exact splitLast_eq_some '.' value a b hsp

/-- For a name without directory part and without `.`, `completeBaseName` is
the name and `suffix` is empty. -/
theorem fileInfo_split_without_dot (value : QString) (hs : '/' ∉ value) (hd : '.' ∉ value) :
    QFileInfo.completeBaseName value = value ∧ QFileInfo.suffix value = [] := by
  have hf : QFileInfo.fileName value = value := by
    unfold QFileInfo.fileName
    rw [(splitLast_eq_none '/' value).mpr hs]
  unfold QFileInfo.completeBaseName QFileInfo.suffix
  rw [hf, (splitLast_eq_none '.' value).mpr hd]
  exact ⟨rfl, rfl⟩

/-! ## The probing loop of `uniqueFileName` -/

/-- The loop stops at the first counter from `i` on whose candidate does not
exist, unless the fuel runs out first. -/
theorem probeLoop_spec (disk : Disk) (dirPath baseName suffix : QString) :
    ∀ (fuel i : Nat),
      i ≤ probeLoop disk dirPath baseName suffix fuel i ∧
      probeLoop disk dirPath baseName suffix fuel i ≤ i + fuel ∧
      (∀ k, i ≤ k → k < probeLoop disk dirPath baseName suffix fuel i →
        QFile.exists disk (candidatePath dirPath baseName suffix k) = true) ∧
      (probeLoop disk dirPath baseName suffix fuel i < i + fuel →
        QFile.exists disk (candidatePath dirPath baseName suffix
          (probeLoop disk dirPath baseName suffix fuel i)) = false)
  | 0, i => by
    refine ⟨le_refl i, le_refl i, ?_, ?_⟩
    · intro k h1 h2
      simp only [probeLoop] at h2
      omega
    · intro h
      simp only [probeLoop] at h
      omega
  | fuel + 1, i => by
    obtain ⟨ih1, ih2, ih3, ih4⟩ := probeLoop_spec disk dirPath baseName suffix fuel (i + 1)
    by_cases hex : QFile.exists disk (candidatePath dirPath baseName suffix i) = true
    · have hr : probeLoop disk dirPath baseName suffix (fuel + 1) i
          = probeLoop disk dirPath baseName suffix fuel (i + 1) := by
        simp [probeLoop, hex]
      rw [hr]
      refine ⟨by omega, by omega, ?_, ?_⟩
      · intro k h1 h2
        by_cases hk : k = i
        · rw [hk]
          exact hex
        · exact ih3 k (by omega) h2
      · intro h
        exact ih4 (by omega)
    · have hr : probeLoop disk dirPath baseName suffix (fuel + 1) i = i := by
        simp [probeLoop, hex]
      rw [hr]
      refine ⟨le_refl i, by omega, ?_, ?_⟩
      · intro k h1 h2
        omega
      · intro _
        simpa using hex

/-- Pigeonhole: the candidates of the counters `1 .. disk.length + 1` are
pairwise different, so they cannot all exist. -/
theorem candidates_not_all_present (disk : Disk) (dirPath baseName suffix : QString)
    (hall : ∀ k, 1 ≤ k → k ≤ disk.length + 1 →
      QFile.exists disk (candidatePath dirPath baseName suffix k) = true) : False := by
  have hnd : ((List.range' 1 (disk.length + 1)).map
      (candidatePath dirPath baseName suffix)).Nodup :=
    (List.nodup_range' 1 (disk.length + 1)).map (candidatePath_injective dirPath baseName suffix)
  have hsub : (List.range' 1 (disk.length + 1)).map (candidatePath dirPath baseName suffix)
      ⊆ disk := by
    intro p hp
    rw [List.mem_map] at hp
    obtain ⟨k, hk, rfl⟩ := hp
    rw [List.mem_range'_1] at hk
    have := hall k hk.1 (by omega)
    simpa [QFile.exists] using this
  have hlen := (List.subperm_of_subset hnd hsub).length_le
  simp at hlen

/-- With the number of files as fuel, started at 1, the loop ends on a
candidate that does not exist: the fuel is never what stops it. -/
theorem probeLoop_free (disk : Disk) (dirPath baseName suffix : QString) :
    QFile.exists disk (candidatePath dirPath baseName suffix
      (probeLoop disk dirPath baseName suffix disk.length 1)) = false := by
  obtain ⟨h1, h2, h3, h4⟩ := probeLoop_spec disk dirPath baseName suffix disk.length 1
  by_cases hlt : probeLoop disk dirPath baseName suffix disk.length 1 < 1 + disk.length
  · exact h4 hlt
  · have hr : probeLoop disk dirPath baseName suffix disk.length 1 = disk.length + 1 := by omega
    by_contra hne
    have hex : QFile.exists disk (candidatePath dirPath baseName suffix
        (probeLoop disk dirPath baseName suffix disk.length 1)) = true := by
      simpa using hne
    refine candidates_not_all_present disk dirPath baseName suffix ?_
    intro k hk1 hk2
    by_cases hk : k = disk.length + 1
    · rw [hk, ← hr]
      exact hex
    · exact h3 k hk1 (by omega)

/-- More fuel than the number of files changes nothing. -/
theorem probeLoop_fuel_irrelevant (disk : Disk) (dirPath baseName suffix : QString)
    (fuel : Nat) (hf : disk.length ≤ fuel) :
    probeLoop disk dirPath baseName suffix fuel 1
      = probeLoop disk dirPath baseName suffix disk.length 1 := by
  obtain ⟨a1, a2, a3, a4⟩ := probeLoop_spec disk dirPath baseName suffix fuel 1
  obtain ⟨b1, b2, b3, _⟩ := probeLoop_spec disk dirPath baseName suffix disk.length 1
  have hfree := probeLoop_free disk dirPath baseName suffix
  rcases Nat.lt_trichotomy (probeLoop disk dirPath baseName suffix fuel 1)
      (probeLoop disk dirPath baseName suffix disk.length 1) with h | h | h
  · have := b3 _ a1 h
    have := a4 (by omega)
    simp_all
  · exact h
  · have := a3 _ b1 h
    simp_all

/-! ## `uniqueFileName` -/

/-- The three guards of `uniqueFileName` pass for non-empty arguments. -/
theorem uniqueFileName_guard (value dirPath postfixStr : QString)
    (hv : value ≠ []) (hd : dirPath ≠ []) (hp : postfixStr ≠ []) :
    (value.isEmpty || dirPath.isEmpty || postfixStr.isEmpty) = false := by
  cases value with
  | nil => exact absurd rfl hv
  | cons _ _ =>
    cases dirPath with
    | nil => exact absurd rfl hd
    | cons _ _ =>
      cases postfixStr with
      | nil => exact absurd rfl hp
      | cons _ _ => rfl

/-- When the remote name is free, `uniqueFileName` returns the complete base
name, a dot, the extension, a dot and the working suffix. -/
theorem uniqueFileName_of_free (disk : Disk) (value dirPath postfixStr : QString)
    (hv : value ≠ []) (hd : dirPath ≠ []) (hp : postfixStr ≠ [])
    (hfree : QFile.exists disk (joinPath dirPath value) = false) :
    uniqueFileName disk value dirPath postfixStr =
      QFileInfo.completeBaseName value ++ QString.fromUtf8 "." ++ QFileInfo.suffix value
        ++ QString.fromUtf8 "." ++ postfixStr := by
  unfold uniqueFileName
  rw [uniqueFileName_guard value dirPath postfixStr hv hd hp]
  simp [hfree]

/-- A free remote name with an extension and without directory part gets the
working suffix appended after a dot. -/
theorem uniqueFileName_of_free_with_extension (disk : Disk)
    (value dirPath postfixStr : QString)
    (hv : value ≠ []) (hd : dirPath ≠ []) (hp : postfixStr ≠ [])
    (hfree : QFile.exists disk (joinPath dirPath value) = false)
    (hs : '/' ∉ value) (hdot : '.' ∈ value) :
    uniqueFileName disk value dirPath postfixStr = value ++ QString.fromUtf8 "." ++ postfixStr := by
  rw [uniqueFileName_of_free disk value dirPath postfixStr hv hd hp hfree]
  have h := (fileInfo_split_at_last_dot value hs hdot).1
  conv_rhs => rw [h]
  simp [QString.fromUtf8]

/-- A free remote name without extension and without directory part gets two
dots before the working suffix: the pattern `"%1.%2.%3"` is filled with an
empty extension. -/
theorem uniqueFileName_of_free_without_extension (disk : Disk)
    (value dirPath postfixStr : QString)
    (hv : value ≠ []) (hd : dirPath ≠ []) (hp : postfixStr ≠ [])
    (hfree : QFile.exists disk (joinPath dirPath value) = false)
    (hs : '/' ∉ value) (hdot : '.' ∉ value) :
    uniqueFileName disk value dirPath postfixStr
      = value ++ QString.fromUtf8 ".." ++ postfixStr := by
  rw [uniqueFileName_of_free disk value dirPath postfixStr hv hd hp hfree]
  obtain ⟨h1, h2⟩ := fileInfo_split_without_dot value hs hdot
  rw [h1, h2]
  simp [QString.fromUtf8]

/-- Stripping the last extension undoes appending one that has no dot and no
separator, whatever the name in front. -/
theorem completeBaseName_append_extension (dir name ext : QString)
    (hn : '/' ∉ name) (he1 : '/' ∉ ext) (he2 : '.' ∉ ext) :
    QFileInfo.completeBaseName (joinPath dir (name ++ QString.fromUtf8 "." ++ ext)) = name := by
  have key : ∀ (c : Char) (a b : QString), c ∉ b → splitLast c (a ++ c :: b) = some (a, b) := by
    intro c a b hb
    induction a with
    | nil =>
      have := (splitLast_eq_none c b).mpr hb
      simp [splitLast, this]
    | cons x xs ih =>
      simp [splitLast, ih]
  have hslash : '/' ∉ name ++ QString.fromUtf8 "." ++ ext := by
    simp [QString.fromUtf8, hn, he1]
  have hfn : QFileInfo.fileName (joinPath dir (name ++ QString.fromUtf8 "." ++ ext))
      = name ++ QString.fromUtf8 "." ++ ext := by
    unfold QFileInfo.fileName joinPath
    have : dir ++ QString.fromUtf8 "/" ++ (name ++ QString.fromUtf8 "." ++ ext)
        = dir ++ '/' :: (name ++ QString.fromUtf8 "." ++ ext) := by
      simp [QString.fromUtf8]
    rw [this, key '/' dir _ hslash]
  unfold QFileInfo.completeBaseName
  rw [hfn]
  have : name ++ QString.fromUtf8 "." ++ ext = name ++ '.' :: ext := by
    simp [QString.fromUtf8]
  rw [this, key '.' name ext he2]

/-- Round trip for a free remote name with an extension: when neither the
name nor the working suffix has a separator and the suffix has no dot, the
complete base name of the working file is the remote name. -/
theorem final_name_of_name_with_extension (disk : Disk) (value dirPath postfixStr : QString)
    (hv : value ≠ []) (hd : dirPath ≠ []) (hp : postfixStr ≠ [])
    (hfree : QFile.exists disk (joinPath dirPath value) = false)
    (hs : '/' ∉ value) (hdot : '.' ∈ value) (hp1 : '/' ∉ postfixStr) (hp2 : '.' ∉ postfixStr) :
    QFileInfo.completeBaseName
      (joinPath dirPath (uniqueFileName disk value dirPath postfixStr)) = value := by
  rw [uniqueFileName_of_free_with_extension disk value dirPath postfixStr hv hd hp hfree hs hdot]
  exact completeBaseName_append_extension dirPath value postfixStr hs hp1 hp2

/-- For a free remote name without extension the complete base name of the
working file is the remote name followed by a dot. -/
theorem final_name_of_name_without_extension (disk : Disk)
    (value dirPath postfixStr : QString)
    (hv : value ≠ []) (hd : dirPath ≠ []) (hp : postfixStr ≠ [])
    (hfree : QFile.exists disk (joinPath dirPath value) = false)
    (hs : '/' ∉ value) (hdot : '.' ∉ value) (hp1 : '/' ∉ postfixStr) (hp2 : '.' ∉ postfixStr) :
    QFileInfo.completeBaseName
      (joinPath dirPath (uniqueFileName disk value dirPath postfixStr))
      = value ++ QString.fromUtf8 "." := by
  rw [uniqueFileName_of_free_without_extension disk value dirPath postfixStr hv hd hp hfree hs
    hdot]
  have hs2 : '/' ∉ value ++ QString.fromUtf8 "." := by
    simp [QString.fromUtf8, hs]
  have h := completeBaseName_append_extension dirPath (value ++ QString.fromUtf8 ".")
    postfixStr hs2 hp1 hp2
  have he : value ++ QString.fromUtf8 ".." ++ postfixStr
      = value ++ QString.fromUtf8 "." ++ QString.fromUtf8 "." ++ postfixStr := by
    simp [QString.fromUtf8]
  rw [he]
  exact h

/-- C5: for non-empty remote name, directory and working suffix, when the
remote name already exists in the directory, `uniqueFileName` returns
`<base> (n).<ext>.<suffix>` where `base` and `ext` are `completeBaseName` and
`suffix` of the remote name (the two sides of its last `.`), `n` is the least
positive integer for which `<base> (n).<ext>` does not exist in the directory,
so the returned name without the working suffix does not collide with an
existing file; `n` is at most the number of files plus one.  The function is
total, so the result is always produced. -/
theorem uniqueFileName_least_free_counter (disk : Disk) (value dirPath postfixStr : QString)
    (hv : value ≠ []) (hd : dirPath ≠ []) (hp : postfixStr ≠ [])
    (hex : QFile.exists disk (joinPath dirPath value) = true) :
    ∃ n : Nat, 1 ≤ n ∧ n ≤ disk.length + 1 ∧
      uniqueFileName disk value dirPath postfixStr =
        QFileInfo.completeBaseName value ++ QString.fromUtf8 " (" ++ QString.number n
          ++ QString.fromUtf8 ")." ++ QFileInfo.suffix value ++ QString.fromUtf8 "."
          ++ postfixStr ∧
      QFile.exists disk (joinPath dirPath
        (QFileInfo.completeBaseName value ++ QString.fromUtf8 " (" ++ QString.number n
          ++ QString.fromUtf8 ")." ++ QFileInfo.suffix value)) = false ∧
      (∀ k : Nat, 1 ≤ k → k < n →
        QFile.exists disk (joinPath dirPath
          (QFileInfo.completeBaseName value ++ QString.fromUtf8 " (" ++ QString.number k
            ++ QString.fromUtf8 ")." ++ QFileInfo.suffix value)) = true) ∧
      ('/' ∉ value → '.' ∈ value →
        value = QFileInfo.completeBaseName value ++ '.' :: QFileInfo.suffix value ∧
          '.' ∉ QFileInfo.suffix value) := by
  have hpath : ∀ k : Nat,
      joinPath dirPath (QFileInfo.completeBaseName value ++ QString.fromUtf8 " ("
        ++ QString.number k ++ QString.fromUtf8 ")." ++ QFileInfo.suffix value)
      = candidatePath dirPath (QFileInfo.completeBaseName value ++ QString.fromUtf8 " (")
          (QFileInfo.suffix value) k := by
    intro k
    simp [joinPath, candidatePath, List.append_assoc]
  obtain ⟨h1, h2, h3, _⟩ := probeLoop_spec disk dirPath
    (QFileInfo.completeBaseName value ++ QString.fromUtf8 " (") (QFileInfo.suffix value)
    disk.length 1
  refine ⟨probeLoop disk dirPath (QFileInfo.completeBaseName value ++ QString.fromUtf8 " (")
    (QFileInfo.suffix value) disk.length 1, h1, by omega, ?_, ?_, ?_, ?_⟩
  · unfold uniqueFileName
    rw [uniqueFileName_guard value dirPath postfixStr hv hd hp]
    simp [hex, QString.fromUtf8, List.append_assoc]
  · rw [hpath]
    exact probeLoop_free disk dirPath _ _
  · intro k hk1 hk2
    rw [hpath]
    exact h3 k hk1 hk2
  · exact fileInfo_split_at_last_dot value

/-- C5, on the example of the specification: with `example.ext`,
`example (1).ext` and `example (2).ext` present the result is
`example (3).ext.suffix`, and the general statement applies. -/
theorem uniqueFileName_least_free_counter_example :
    uniqueFileName exampleDisk (QString.fromUtf8 "example.ext") (QString.fromUtf8 "dir")
        (QString.fromUtf8 "suffix") = QString.fromUtf8 "example (3).ext.suffix" ∧
    QFile.exists exampleDisk (joinPath (QString.fromUtf8 "dir") (QString.fromUtf8 "example.ext"))
      = true ∧
    ∃ n : Nat, 1 ≤ n ∧ n ≤ exampleDisk.length + 1 ∧
      uniqueFileName exampleDisk (QString.fromUtf8 "example.ext") (QString.fromUtf8 "dir")
          (QString.fromUtf8 "suffix") =
        QFileInfo.completeBaseName (QString.fromUtf8 "example.ext") ++ QString.fromUtf8 " ("
          ++ QString.number n ++ QString.fromUtf8 ")."
          ++ QFileInfo.suffix (QString.fromUtf8 "example.ext") ++ QString.fromUtf8 "."
          ++ QString.fromUtf8 "suffix" ∧
      QFile.exists exampleDisk (joinPath (QString.fromUtf8 "dir")
        (QFileInfo.completeBaseName (QString.fromUtf8 "example.ext") ++ QString.fromUtf8 " ("
          ++ QString.number n ++ QString.fromUtf8 ")."
          ++ QFileInfo.suffix (QString.fromUtf8 "example.ext"))) = false ∧
      (∀ k : Nat, 1 ≤ k → k < n →
        QFile.exists exampleDisk (joinPath (QString.fromUtf8 "dir")
          (QFileInfo.completeBaseName (QString.fromUtf8 "example.ext") ++ QString.fromUtf8 " ("
            ++ QString.number k ++ QString.fromUtf8 ")."
            ++ QFileInfo.suffix (QString.fromUtf8 "example.ext"))) = true) ∧
      ('/' ∉ QString.fromUtf8 "example.ext" → '.' ∈ QString.fromUtf8 "example.ext" →
        QString.fromUtf8 "example.ext"
            = QFileInfo.completeBaseName (QString.fromUtf8 "example.ext")
              ++ '.' :: QFileInfo.suffix (QString.fromUtf8 "example.ext") ∧
          '.' ∉ QFileInfo.suffix (QString.fromUtf8 "example.ext")) :=
  ⟨by decide, by decide,
    uniqueFileName_least_free_counter exampleDisk (QString.fromUtf8 "example.ext")
      (QString.fromUtf8 "dir") (QString.fromUtf8 "suffix") (by decide) (by decide) (by decide)
      (by decide)⟩

/-- C4, at a remote name without extension: `README` does not exist in the
directory, and `uniqueFileName` returns `README..downloading`, with two dots,
not `README.downloading`. -/
theorem uniqueFileName_dotless_name_gets_two_dots :
    QFile.exists [] (joinPath (QString.fromUtf8 "dir") (QString.fromUtf8 "README")) = false ∧
    uniqueFileName [] (QString.fromUtf8 "README") (QString.fromUtf8 "dir")
        (QString.fromUtf8 "downloading") = QString.fromUtf8 "README..downloading" ∧
    uniqueFileName [] (QString.fromUtf8 "README") (QString.fromUtf8 "dir")
        (QString.fromUtf8 "downloading")
      ≠ QString.fromUtf8 "README" ++ QString.fromUtf8 "." ++ QString.fromUtf8 "downloading" := by
  decide

/-- C3, at a remote name without extension: a download of
`https://host/README` into the empty directory `/app` works on
`/app/README..downloading`, and its successful end renames that file to
`/app/README.`, which is not the remote name `README`. -/
theorem final_name_differs_for_dotless_name :
    (start (setUrl freshSession readmeUrl) (fun _ => .failed) true).m_fileInfo.fileName
      = QString.fromUtf8 "README" ∧
    (start (setUrl freshSession readmeUrl) (fun _ => .failed) true).m_file.fileName
      = QString.fromUtf8 "/app/README..downloading" ∧
    QFileInfo.completeBaseName (QString.fromUtf8 "/app/README..downloading")
      = QString.fromUtf8 "README." ∧
    (onFinished (start (setUrl freshSession readmeUrl) (fun _ => .failed) true)
        ⟨none, false⟩ (fun _ => .failed) true).map (fun s => s.disk)
      = some [QString.fromUtf8 "/app/README."] := by
  decide

/-! ## `getRemoteFileInfo` -/

/-- While the attempts time out the loop goes on; the first reply that
finishes with an error ends it, with the name taken from the url. -/
theorem headLoop_first_error (val : QUrl) (replies : Nat → HeadReply) :
    ∀ (k remaining i : Nat) (info : FileInfo) (ok : Option Bool),
      k < remaining → (∀ j, j < k → replies (i + j) = .timedOut) →
      replies (i + k) = .failed →
      headLoop val replies remaining i info ok
        = ⟨{ info with fileName := val.fileName }, ok.map (fun _ => false), i + k + 1⟩
  | 0, 0, _, _, _, h, _, _ => absurd h (Nat.lt_irrefl 0)
  | 0, remaining + 1, i, info, ok, _, _, hk => by
    have hk2 : replies i = .failed := by simpa using hk
    simp [headLoop, hk2]
  | k + 1, 0, _, _, _, h, _, _ => absurd h (Nat.not_lt_zero _)
  | k + 1, remaining + 1, i, info, ok, h, hto, hk => by
    have h0 : replies i = .timedOut := by simpa using hto 0 (Nat.succ_pos k)
    have ih := headLoop_first_error val replies k remaining (i + 1) info ok (by omega)
      (fun j hj => by
        have := hto (j + 1) (by omega)
        rwa [show i + 1 + j = i + (j + 1) by omega])
      (by rwa [show i + 1 + k = i + (k + 1) by omega])
    simp only [headLoop, h0]
    rw [ih]
    have : i + 1 + k + 1 = i + (k + 1) + 1 := by omega
    rw [this]

/-- When every attempt times out the loop makes all of them and returns what
it was given. -/
theorem headLoop_all_timed_out (val : QUrl) (replies : Nat → HeadReply) :
    ∀ (remaining i : Nat) (info : FileInfo) (ok : Option Bool),
      (∀ j, j < remaining → replies (i + j) = .timedOut) →
      headLoop val replies remaining i info ok = ⟨info, ok, i + remaining⟩
  | 0, i, info, ok, _ => by simp [headLoop]
  | remaining + 1, i, info, ok, hto => by
    have h0 : replies i = .timedOut := by simpa using hto 0 (Nat.succ_pos remaining)
    have ih := headLoop_all_timed_out val replies remaining (i + 1) info ok
      (fun j hj => by
        have := hto (j + 1) (by omega)
        rwa [show i + 1 + j = i + (j + 1) by omega])
    simp only [headLoop, h0]
    rw [ih]
    have : i + 1 + remaining = i + (remaining + 1) := by omega
    rw [this]

/-- With valid arguments `getRemoteFileInfo` runs the loop. -/
theorem getRemoteFileInfo_of_valid (val : QUrl) (tryTimes tryTimeout : Int) (ok : Option Bool)
    (replies : Nat → HeadReply) (hv : val.isValid = true) (ht : 1 ≤ tryTimes)
    (hto : 1000 ≤ tryTimeout) :
    getRemoteFileInfo val tryTimes tryTimeout ok replies
      = headLoop val replies tryTimes.toNat 0 {} ok := by
  unfold getRemoteFileInfo
  have h1 : ¬ tryTimes < 1 := by omega
  have h2 : ¬ tryTimeout < 1000 := by omega
  simp [hv, h1, h2]

/-- C7, refuted as stated: with five attempts allowed and every reply
finishing with an error, a single request is issued, not five; and when all
five attempts time out the returned file name is empty, not the name
`file.zip` of the url, and the cell `ok` still holds the `true` it was passed
with. -/
theorem getRemoteFileInfo_does_not_retry_after_error :
    fileZipUrl.isValid = true ∧ fileZipUrl.fileName = QString.fromUtf8 "file.zip" ∧
    (getRemoteFileInfo fileZipUrl 5 3000 (some true) (fun _ => .failed)).requests = 1 ∧
    (getRemoteFileInfo fileZipUrl 5 3000 (some true) (fun _ => .timedOut)).requests = 5 ∧
    (getRemoteFileInfo fileZipUrl 5 3000 (some true) (fun _ => .timedOut)).info.fileName = [] ∧
    (getRemoteFileInfo fileZipUrl 5 3000 (some true) (fun _ => .timedOut)).ok = some true := by
  decide

/-- C7, amended: for a valid url, `tryTimes >= 1` and `tryTimeout >= 1000`, the
attempts go on only while they time out.  If attempt `k` (counted from 0,
`k < tryTimes`) is the first that does not time out and it finishes with an
error, exactly `k + 1` requests are issued and the result carries the file name
derived from the url, no type, size 0, and `ok = false`.  If all `tryTimes`
attempts time out, exactly `tryTimes` requests are issued. -/
theorem getRemoteFileInfo_failed_attempts (val : QUrl) (tryTimes tryTimeout : Int)
    (ok : Option Bool) (replies : Nat → HeadReply)
    (hv : val.isValid = true) (ht : 1 ≤ tryTimes) (hto : 1000 ≤ tryTimeout) :
    (∀ k : Nat, (k : Int) < tryTimes → (∀ j, j < k → replies j = .timedOut) →
      replies k = .failed →
      (getRemoteFileInfo val tryTimes tryTimeout ok replies).requests = k + 1 ∧
      (getRemoteFileInfo val tryTimes tryTimeout ok replies).info
        = { fileName := val.fileName, fileType := [], fileSize := 0 } ∧
      (getRemoteFileInfo val tryTimes tryTimeout ok replies).ok = ok.map (fun _ => false)) ∧
    ((∀ j : Nat, (j : Int) < tryTimes → replies j = .timedOut) →
      ((getRemoteFileInfo val tryTimes tryTimeout ok replies).requests : Int) = tryTimes) := by
  rw [getRemoteFileInfo_of_valid val tryTimes tryTimeout ok replies hv ht hto]
  constructor
  · intro k hk hbefore hfail
    have h := headLoop_first_error val replies k tryTimes.toNat 0 {} ok (by omega)
      (fun j hj => by simpa using hbefore j hj) (by simpa using hfail)
    rw [h]
    simp
  · intro hall
    have h := headLoop_all_timed_out val replies tryTimes.toNat 0 {} ok
      (fun j hj => by simpa using hall j (by omega))
    rw [h]
    simp
    omega

/-- C7, amended, at a concrete input: two attempts time out, the third
finishes with an error; three requests are issued and the name is `file.zip`. -/
theorem getRemoteFileInfo_failed_attempts_example :
    (getRemoteFileInfo fileZipUrl 5 3000 (some true)
        (fun i => if i < 2 then .timedOut else .failed)).requests = 2 + 1 ∧
    (getRemoteFileInfo fileZipUrl 5 3000 (some true)
        (fun i => if i < 2 then .timedOut else .failed)).info
      = { fileName := fileZipUrl.fileName, fileType := [], fileSize := 0 } ∧
    (getRemoteFileInfo fileZipUrl 5 3000 (some true)
        (fun i => if i < 2 then .timedOut else .failed)).ok
      = (some true).map (fun _ => false) :=
  (getRemoteFileInfo_failed_attempts fileZipUrl 5 3000 (some true)
    (fun i => if i < 2 then .timedOut else .failed) (by decide) (by decide) (by decide)).1 2
    (by decide) (fun j hj => by simp [hj]) (by simp)

/-- C8: when the url is invalid, or `tryTimes < 1`, or `tryTimeout < 1000`,
`getRemoteFileInfo` issues no request and returns the default file
information (empty name, empty type, size 0), and the cell `ok`, when one is
passed, holds `false`. -/
theorem getRemoteFileInfo_invalid_arguments (val : QUrl) (tryTimes tryTimeout : Int)
    (ok : Option Bool) (replies : Nat → HeadReply)
    (h : val.isValid = false ∨ tryTimes < 1 ∨ tryTimeout < 1000) :
    (getRemoteFileInfo val tryTimes tryTimeout ok replies).requests = 0 ∧
    (getRemoteFileInfo val tryTimes tryTimeout ok replies).info
      = { fileName := [], fileType := [], fileSize := 0 } ∧
    (getRemoteFileInfo val tryTimes tryTimeout ok replies).ok = ok.map (fun _ => false) := by
  unfold getRemoteFileInfo
  rcases h with h | h | h
  · simp [h]
  · by_cases hv : val.isValid = true
    · simp [hv, h]
    · simp [hv]
  · by_cases hv : val.isValid = true
    · by_cases ht : tryTimes < 1
      · simp [hv, ht]
      · simp [hv, ht, h]
    · simp [hv]

/-- C8 at concrete inputs: a valid url with a timeout of 999 ms, and the
empty url with the default arguments. -/
theorem getRemoteFileInfo_invalid_arguments_example :
    ((getRemoteFileInfo fileZipUrl 5 999 (some true) headOk).requests = 0 ∧
      (getRemoteFileInfo fileZipUrl 5 999 (some true) headOk).info
        = { fileName := [], fileType := [], fileSize := 0 } ∧
      (getRemoteFileInfo fileZipUrl 5 999 (some true) headOk).ok
        = (some true).map (fun _ => false)) ∧
    (getRemoteFileInfo QUrl.empty 5 3000 (some true) headOk).ok = some false :=
  ⟨getRemoteFileInfo_invalid_arguments fileZipUrl 5 999 (some true) headOk
      (Or.inr (Or.inr (by decide))), by decide⟩

/-! ## Pause, resume and redirect -/

theorem wrapInt64_of_inRange (x : Int) (h1 : -2 ^ 63 ≤ x) (h2 : x < 2 ^ 63) :
    wrapInt64 x = x := by
  unfold wrapInt64
  rw [Int.emod_eq_of_lt (by omega) (by omega)]
  omega

/-- What `pause` adds to the bytes of the earlier runs is the member
`m_receivedBytes`, whichever run wrote it last. -/
theorem pause_adds_receivedBytes (s : State) (hd : s.m_downloading = true)
    (hp : s.m_paused = false) (hb : breakpointSupported s = true) :
    (pause s).m_currentReceivedBytes
      = wrapInt64 (s.m_currentReceivedBytes + s.m_receivedBytes) := by
  have hb2 : breakpointSupported (stopDownload { s with m_paused := true }) = true := hb
  simp [pause, hd, hp, hb, stopDownload, closeFile]

/-- A run that reports progress, is paused and is resumed is continued at the
earlier offset plus the count of its last progress report. -/
theorem resume_range_after_progress (s : State) (received total elapsed : Int)
    (hd : s.m_downloading = true) (hp : s.m_paused = false)
    (hb : breakpointSupported s = true)
    (hpos : 0 < s.m_currentReceivedBytes + received)
    (hlt : s.m_currentReceivedBytes + received < 2 ^ 63) :
    (resume (pause (onProgressChanged s received total elapsed)) true).m_reply
      = some { url := s.m_url
               range := some (QString.fromUtf8 "bytes="
                 ++ QString.numberInt (s.m_currentReceivedBytes + received)
                 ++ QString.fromUtf8 "-") } := by
  have hw := wrapInt64_of_inRange (s.m_currentReceivedBytes + received) (by omega) hlt
  have hb' : QString.startsWithCI s.m_url.scheme (QString.fromUtf8 "http") = true := hb
  have hn : ¬ (s.m_currentReceivedBytes + received ≤ 0) := by omega
  simp [resume, pause, onProgressChanged, start_internal, stopDownload, closeFile, openFile,
    breakpointSupported, hd, hp, hb', hw, hpos, hn]

/-- C1, at a run without progress report: after `start`, a progress report of
400 of 1000 bytes, `pause` and `resume`, the request carries `bytes=400-`; a
second `pause` before any progress report of the second run adds the 400
bytes of the first run again, and the next `resume` requests `bytes=800-`
although 400 bytes were received in all. -/
theorem resume_range_counts_stale_progress :
    resumedSession.m_reply
      = some { url := fileZipUrl, range := some (QString.fromUtf8 "bytes=400-") } ∧
    resumedSession.m_receivedBytes = 400 ∧
    (pause resumedSession).m_currentReceivedBytes = 800 ∧
    (resume (pause resumedSession) true).m_reply
      = some { url := fileZipUrl, range := some (QString.fromUtf8 "bytes=800-") } := by
  decide

/-- A start with no bytes from earlier runs opens the file for truncation and
sends no `Range` header. -/
theorem start_internal_from_zero (x : State) (hd : x.m_downloading = false)
    (hc : x.m_currentReceivedBytes ≤ 0) :
    (start_internal x true).m_url = x.m_url ∧
    (start_internal x true).m_currentReceivedBytes = x.m_currentReceivedBytes ∧
    (start_internal x true).m_file.openMode = some .truncate ∧
    (start_internal x true).m_reply = some { url := x.m_url, range := none } ∧
    (start_internal x true).m_downloading = true := by
  have hn : ¬ (0 < x.m_currentReceivedBytes) := by omega
  unfold start_internal
  simp only [hd, closeFile, setFileName, hn, hc, decide_False, decide_True, Bool.and_false,
    Bool.not_false, Bool.true_and, Bool.false_eq_true, if_true, if_false, Bool.not_true]
  split_ifs <;> simp [removeFile, openFile]

/-- The redirect branch of `onFinished`: the file is deleted, the url
replaced, type and size refreshed, and the transfer started again. -/
theorem onFinished_redirect (s : State) (r : QNetworkRequest) (target : QUrl) (error : Bool)
    (replies : Nat → HeadReply) (openOk : Bool) (hr : s.m_reply = some r)
    (hp : s.m_paused = false) :
    ∃ x : State, onFinished s ⟨some target, error⟩ replies openOk
        = some (start_internal x openOk) ∧
      x.m_url = target ∧ x.m_downloading = false ∧
      x.m_currentReceivedBytes = s.m_currentReceivedBytes := by
  simp only [onFinished, hr, closeFile, hp]
  exact ⟨_, rfl, rfl, rfl, rfl⟩

/-- A redirect in a session that has no bytes from earlier runs restarts from
byte 0: new url, truncating open, no `Range` header. -/
theorem redirect_restarts_from_zero (s : State) (target : QUrl) (error : Bool)
    (replies : Nat → HeadReply) (hr : s.m_reply ≠ none) (hp : s.m_paused = false)
    (hc : s.m_currentReceivedBytes = 0) :
    ∃ s1, onFinished s ⟨some target, error⟩ replies true = some s1 ∧
      s1.m_url = target ∧ s1.m_currentReceivedBytes = 0 ∧
      s1.m_file.openMode = some .truncate ∧
      s1.m_reply = some { url := target, range := none } ∧ s1.m_downloading = true := by
  cases hrep : s.m_reply with
  | none => exact absurd hrep hr
  | some r =>
    obtain ⟨x, hx, hu, hd, hcur⟩ := onFinished_redirect s r target error replies true hrep hp
    obtain ⟨h1, h2, h3, h4, h5⟩ := start_internal_from_zero x hd (by omega)
    exact ⟨_, hx, by rw [h1, hu], by rw [h2, hcur, hc], h3, by rw [h4, hu], h5⟩

/-- C2, at a session that was paused and resumed: the resumed session holds
400 bytes of earlier runs; when its transfer finishes with a redirect to
`https://mirror/file.zip`, the working file is deleted and the url replaced,
but `m_currentReceivedBytes` is still 400, and the restarted transfer opens
the file for appending and sends `Range: bytes=400-`. -/
theorem redirect_after_resume_keeps_offset :
    resumedSession.m_currentReceivedBytes = 400 ∧ resumedSession.m_paused = false ∧
    (onFinished resumedSession ⟨some mirrorUrl, false⟩ headOk true).map
        (fun s => (s.m_url, s.m_currentReceivedBytes, s.m_file.openMode, s.m_reply))
      = some (mirrorUrl, 400, some OpenMode.append,
          some { url := mirrorUrl, range := some (QString.fromUtf8 "bytes=400-") }) := by
  decide

/-! ## `setDownloadingPostfix` -/

/-- What `setDownloadingPostfix` stores for a new non-empty value: the test
for a leading dot reads the stored suffix, not the new value. -/
theorem setDownloadingPostfix_stored (s : State) (val : QString) (hne : val ≠ [])
    (hdiff : s.m_downloadingPostfix ≠ val) :
    (setDownloadingPostfix s val).m_downloadingPostfix
      = if QString.startsWithChar s.m_downloadingPostfix '.' then val.drop 1 else val := by
  cases val with
  | nil => exact absurd rfl hne
  | cons c cs =>
    unfold setDownloadingPostfix
    by_cases h : QString.startsWithChar s.m_downloadingPostfix '.' = true
    · simp [hdiff, h, QString.mid]
    · simp [hdiff, h]

/-- C10, at a fresh session: the stored suffix is `downloading`; after
`setDownloadingPostfix(".part")` it is `.part`, with its leading dot, not
`part`; and setting `tmp` next stores `mp`, because now the stored suffix
starts with a dot. -/
theorem setDownloadingPostfix_keeps_leading_dot :
    freshSession.m_downloadingPostfix = QString.fromUtf8 "downloading" ∧
    (setDownloadingPostfix freshSession (QString.fromUtf8 ".part")).m_downloadingPostfix
      = QString.fromUtf8 ".part" ∧
    (setDownloadingPostfix freshSession (QString.fromUtf8 ".part")).m_downloadingPostfix
      ≠ QString.fromUtf8 "part" ∧
    (setDownloadingPostfix (setDownloadingPostfix freshSession (QString.fromUtf8 ".part"))
        (QString.fromUtf8 "tmp")).m_downloadingPostfix = QString.fromUtf8 "mp" := by
  decide

/-! ## Progress and speed -/

/-- Whatever the stored value, `qBound(0.0, v, 1.0)` is a number of `[0, 1]`;
NaN is mapped to 0. -/
theorem qBound_unit_interval (v : QReal) :
    ∃ q : ℚ, qBound (.val 0) v (.val 1) = .val q ∧ 0 ≤ q ∧ q ≤ 1 := by
  cases v with
  | val a =>
    by_cases h1 : (1 : ℚ) < a
    · exact ⟨1, by simp [qBound, qMin, qMax, QReal.lt, h1], by norm_num, le_refl 1⟩
    · by_cases h0 : (0 : ℚ) < a
      · exact ⟨a, by simp [qBound, qMin, qMax, QReal.lt, h1, h0], le_of_lt h0, not_lt.mp h1⟩
      · exact ⟨0, by simp [qBound, qMin, qMax, QReal.lt, h1, h0], le_refl 0, by norm_num⟩
  | posInf => exact ⟨1, by simp [qBound, qMin, qMax, QReal.lt], by norm_num, le_refl 1⟩
  | negInf => exact ⟨0, by simp [qBound, qMin, qMax, QReal.lt], le_refl 0, by norm_num⟩
  | nan => exact ⟨0, by simp [qBound, qMin, qMax, QReal.lt], le_refl 0, by norm_num⟩

/-- The value that `onProgressChanged` computes before it picks the unit. -/
theorem onProgressChanged_speed (s : State) (received total elapsed : Int)
    (hd : s.m_downloading = true) (he : 0 < elapsed) :
    (onProgressChanged s received total elapsed).m_speed =
      if ((received : ℚ) * 1000 / (elapsed : ℚ)) < 1024 then
        { value := .val ((received : ℚ) * 1000 / (elapsed : ℚ)), unit := QString.fromUtf8 "B/s" }
      else if ((received : ℚ) * 1000 / (elapsed : ℚ)) < 1024 * 1024 then
        { value := .val ((received : ℚ) * 1000 / (elapsed : ℚ) / 1024),
          unit := QString.fromUtf8 "KB/s" }
      else
        { value := .val ((received : ℚ) * 1000 / (elapsed : ℚ) / (1024 * 1024)),
          unit := QString.fromUtf8 "MB/s" } := by
  have hne : (elapsed : ℚ) ≠ 0 := by
    exact_mod_cast (ne_of_gt he)
  simp only [onProgressChanged, hd, QReal.ofInt, QReal.mul, QReal.div, QReal.lt]
  simp [hne]

/-! ## Pause without breakpoint support, and `stop` -/

/-- The split at the last `c` of `a ++ c :: b`, when `c` does not occur in `b`. -/
theorem splitLast_append_cons (c : Char) (a b : QString) (hb : c ∉ b) :
    splitLast c (a ++ c :: b) = some (a, b) := by
  induction a with
  | nil =>
    have := (splitLast_eq_none c b).mpr hb
    simp [splitLast, this]
  | cons x xs ih =>
    simp [splitLast, ih]

/-- Appending a tail without `c` moves the last `c`, if there is one, no
further. -/
theorem splitLast_append_of_not_mem (c : Char) (t : QString) (ht : c ∉ t) :
    ∀ a : QString, splitLast c (a ++ t) = (splitLast c a).map (fun p => (p.1, p.2 ++ t))
  | [] => by
    have := (splitLast_eq_none c t).mpr ht
    simp [splitLast, this]
  | x :: xs => by
    have ih := splitLast_append_of_not_mem c t ht xs
    cases hxs : splitLast c xs with
    | none =>
      rw [hxs] at ih
      by_cases hx : x = c
      · simp [splitLast, hxs, ih, hx]
      · simp [splitLast, hxs, ih, hx]
    | some ab =>
      rw [hxs] at ih
      simp [splitLast, hxs, ih]

/-- A path that ends in a dot and an extension without dot and separator has
that extension as its `suffix`. -/
theorem suffix_append_extension (a ext : QString) (h1 : '/' ∉ ext) (h2 : '.' ∉ ext) :
    QFileInfo.suffix (a ++ QString.fromUtf8 "." ++ ext) = ext := by
  have hshape : a ++ QString.fromUtf8 "." ++ ext = a ++ '.' :: ext := by
    simp [QString.fromUtf8]
  have ht : '/' ∉ '.' :: ext := by
    simp [h1]
  have hfn : QFileInfo.fileName (a ++ '.' :: ext) = QFileInfo.fileName a ++ '.' :: ext := by
    unfold QFileInfo.fileName
    rw [splitLast_append_of_not_mem '/' ('.' :: ext) ht a]
    cases splitLast '/' a with
    | none => rfl
    | some ab => rfl
  unfold QFileInfo.suffix
  rw [hshape, hfn, splitLast_append_cons '.' (QFileInfo.fileName a) ext h2]

/-- For non-empty arguments the result of `uniqueFileName` ends in a dot and
the working suffix. -/
theorem uniqueFileName_ends_with_postfix (disk : Disk) (value dirPath postfixStr : QString)
    (hv : value ≠ []) (hd : dirPath ≠ []) (hp : postfixStr ≠ []) :
    ∃ stem : QString,
      uniqueFileName disk value dirPath postfixStr = stem ++ QString.fromUtf8 "." ++ postfixStr := by
  unfold uniqueFileName
  rw [uniqueFileName_guard value dirPath postfixStr hv hd hp]
  exact ⟨_, rfl⟩

/-- The working file that `uniqueFileName` names carries the working suffix,
when that suffix has no dot and no separator. -/
theorem working_file_carries_postfix (disk : Disk) (value dirPath postfixStr : QString)
    (hv : value ≠ []) (hd : dirPath ≠ []) (hp : postfixStr ≠ [])
    (h1 : '/' ∉ postfixStr) (h2 : '.' ∉ postfixStr) :
    QFileInfo.suffix (joinPath dirPath (uniqueFileName disk value dirPath postfixStr))
      = postfixStr := by
  obtain ⟨stem, hstem⟩ := uniqueFileName_ends_with_postfix disk value dirPath postfixStr hv hd hp
  rw [hstem]
  have : joinPath dirPath (stem ++ QString.fromUtf8 "." ++ postfixStr)
      = (dirPath ++ QString.fromUtf8 "/" ++ stem) ++ QString.fromUtf8 "." ++ postfixStr := by
    simp [joinPath, List.append_assoc]
  rw [this]
  exact suffix_append_extension _ postfixStr h1 h2

/-- After `removeFile` the file is not on the disk. -/
theorem removeFile_not_exists (s : State) :
    QFile.exists (removeFile s).disk s.m_file.fileName = false := by
  simp [removeFile, QFile.exists]

/-- What `resetData` leaves. -/
theorem resetData_fields (s : State) :
    transferFieldsDefault (resetData s) ∧ (resetData s).m_downloading = false ∧
    (resetData s).m_paused = false ∧ (resetData s).m_url = QUrl.empty ∧
    (resetData s).m_reply = s.m_reply ∧ (resetData s).m_file = s.m_file ∧
    (resetData s).disk = s.disk := by
  simp [resetData, transferFieldsDefault]

/-- What `stop` leaves: an idle session with default transfer fields, no
request and a closed file; the file is deleted when the suffix of its name is
the working suffix. -/
theorem stop_fields (s : State) :
    (stop s).m_downloading = false ∧ (stop s).m_paused = false ∧
    transferFieldsDefault (stop s) ∧ (stop s).m_url = QUrl.empty ∧
    (stop s).m_reply = none ∧ (stop s).m_file.openMode = none ∧
    (QFileInfo.suffix s.m_file.fileName = s.m_downloadingPostfix →
      QFile.exists (stop s).disk s.m_file.fileName = false) := by
  unfold stop
  simp only [stopDownload, closeFile]
  split_ifs with hcond
  · obtain ⟨r1, r2, r3, r4, r5, r6, r7⟩ := resetData_fields
      (removeFile { s with m_reply := none, m_file := { s.m_file with openMode := none },
                           m_downloading := false })
    refine ⟨r2, r3, r1, r4, ?_, ?_, ?_⟩
    · rw [r5]
      rfl
    · rw [r6]
      rfl
    · intro _
      rw [r7]
      simp [removeFile, QFile.exists]
  · obtain ⟨r1, r2, r3, r4, r5, r6, r7⟩ := resetData_fields
      { s with m_reply := none, m_file := { s.m_file with openMode := none },
               m_downloading := false }
    refine ⟨r2, r3, r1, r4, ?_, ?_, ?_⟩
    · rw [r5]
    · rw [r6]
    · intro hsuf
      rw [r7]
      simp only [fileExists, Bool.and_eq_true, decide_eq_true_eq, not_and] at hcond
      have := hcond hsuf
      simpa using this

/-- In a running session without breakpoint support `pause` is `stop`. -/
theorem pause_eq_stop (s : State) (hd : s.m_downloading = true) (hp : s.m_paused = false)
    (hb : breakpointSupported s = false) : pause s = stop s := by
  simp [pause, hd, hp, hb]

/-- In a running session without breakpoint support `pause` leaves what
`stop` leaves. -/
theorem pause_without_breakpoint_is_stop_core (s : State) (hd : s.m_downloading = true)
    (hp : s.m_paused = false) (hb : breakpointSupported s = false) :
    pause s = stop s ∧
    (pause s).m_downloading = false ∧ (pause s).m_paused = false ∧
    transferFieldsDefault (pause s) ∧ (pause s).m_url = QUrl.empty ∧
    (pause s).m_reply = none ∧ (pause s).m_file.openMode = none ∧
    (QFileInfo.suffix s.m_file.fileName = s.m_downloadingPostfix →
      QFile.exists (pause s).disk s.m_file.fileName = false) := by
  rw [pause_eq_stop s hd hp hb]
  exact ⟨rfl, stop_fields s⟩

/-- C11, at two running sessions for `ftp://host/file.zip`, not paused and
without breakpoint support: `pause()` does what `stop()` does, and the
unfinished working file stays on the disk, because `stop()` deletes it only
when `QFileInfo(m_file).suffix()` is the working suffix.  In the first
session the working suffix is `part.tmp`, and the suffix of
`/app/file.zip.part.tmp` is `tmp`; in the second the working suffix was set to
`part` after the transfer had started on `/app/file.zip.downloading`. -/
theorem pause_without_breakpoint_may_keep_file :
    (dottedSuffixSession.m_downloading = true ∧ dottedSuffixSession.m_paused = false ∧
      breakpointSupported dottedSuffixSession = false ∧
      pause dottedSuffixSession = stop dottedSuffixSession ∧
      dottedSuffixSession.m_file.fileName = QString.fromUtf8 "/app/file.zip.part.tmp" ∧
      (pause dottedSuffixSession).disk = [QString.fromUtf8 "/app/file.zip.part.tmp"]) ∧
    (changedSuffixSession.m_downloading = true ∧ changedSuffixSession.m_paused = false ∧
      breakpointSupported changedSuffixSession = false ∧
      pause changedSuffixSession = stop changedSuffixSession ∧
      changedSuffixSession.m_file.fileName = QString.fromUtf8 "/app/file.zip.downloading" ∧
      (pause changedSuffixSession).disk = [QString.fromUtf8 "/app/file.zip.downloading"]) := by
  decide

/-- What holds of `pause()` in every session state that is downloading, not
paused and without breakpoint support: it ends in exactly the state that
`stop()` ends in, neither downloading nor paused, the transfer fields at
their defaults, the url cleared, no request, the file closed; the working
file is gone when the suffix of its name is the working suffix, the only
case in which `stop()` deletes it. -/
theorem pause_without_breakpoint_is_stop (s : State) (hd : s.m_downloading = true)
    (hp : s.m_paused = false) (hb : breakpointSupported s = false) :
    pause s = stop s ∧
    (pause s).m_downloading = false ∧ (pause s).m_paused = false ∧
    transferFieldsDefault (pause s) ∧ (pause s).m_url = QUrl.empty ∧
    (pause s).m_reply = none ∧ (pause s).m_file.openMode = none ∧
    (QFileInfo.suffix s.m_file.fileName = s.m_downloadingPostfix →
      QFile.exists (pause s).disk s.m_file.fileName = false) := by
  rw [pause_eq_stop s hd hp hb]
  exact ⟨rfl, stop_fields s⟩

/-- The session for `ftp://host/file.zip` with the default working suffix:
`pause()` leaves the disk empty. -/
theorem pause_without_breakpoint_is_stop_example :
    ftpSession.disk = [QString.fromUtf8 "/app/file.zip.downloading"] ∧
    (pause ftpSession).disk = [] ∧
    (pause ftpSession = stop ftpSession ∧
      (pause ftpSession).m_downloading = false ∧ (pause ftpSession).m_paused = false ∧
      transferFieldsDefault (pause ftpSession) ∧ (pause ftpSession).m_url = QUrl.empty ∧
      (pause ftpSession).m_reply = none ∧ (pause ftpSession).m_file.openMode = none ∧
      (QFileInfo.suffix ftpSession.m_file.fileName = ftpSession.m_downloadingPostfix →
        QFile.exists (pause ftpSession).disk ftpSession.m_file.fileName = false)) :=
  ⟨by decide, by decide,
    pause_without_breakpoint_is_stop ftpSession (by decide) (by decide) (by decide)⟩

/-- A start without bytes of earlier runs, or without breakpoint support,
names the working file with `uniqueFileName`, creates it and begins the
transfer. -/
theorem start_internal_fresh_file (x : State) (hd : x.m_downloading = false)
    (happ : (breakpointSupported x && decide (x.m_currentReceivedBytes > 0)) = false) :
    (start_internal x true).m_file.fileName
      = joinPath x.m_saveDirectory (uniqueFileName x.disk x.m_fileInfo.fileName
          x.m_saveDirectory x.m_downloadingPostfix) ∧
    QFile.exists (start_internal x true).disk (start_internal x true).m_file.fileName = true ∧
    (start_internal x true).m_downloading = true ∧ (start_internal x true).m_paused = false ∧
    (start_internal x true).m_url = x.m_url ∧
    (start_internal x true).m_downloadingPostfix = x.m_downloadingPostfix := by
  have happ2 : (breakpointSupported (closeFile x)
      && decide ((closeFile x).m_currentReceivedBytes > 0)) = false := happ
  unfold start_internal
  simp only [hd, happ2, Bool.false_eq_true, if_false, Bool.not_false, if_true, Bool.not_true]
  split_ifs <;>
    simp [openFile, removeFile, setFileName, closeFile, QFile.exists, fileExists]
  split_ifs <;> simp_all

/-- From start to pause without breakpoint support: a session that is idle,
has a valid url whose scheme does not begin with `http`, a save directory, a
probed file name and a working suffix without dot and separator, is started
and then paused; the working file that `start()` created is gone. -/
theorem start_then_pause_removes_working_file (s : State) (replies : Nat → HeadReply)
    (hd : s.m_downloading = false) (hp : s.m_paused = false) (hv : s.m_url.isValid = true)
    (hdir : s.m_saveDirectory ≠ []) (hb : breakpointSupported s = false)
    (hname : (getRemoteFileInfo s.m_url defaultTryTimes defaultTimeout none replies).info.fileName
      ≠ [])
    (hpf : s.m_downloadingPostfix ≠ []) (h1 : '/' ∉ s.m_downloadingPostfix)
    (h2 : '.' ∉ s.m_downloadingPostfix) :
    (start s replies true).m_downloading = true ∧
    QFile.exists (start s replies true).disk (start s replies true).m_file.fileName = true ∧
    QFile.exists (pause (start s replies true)).disk (start s replies true).m_file.fileName
      = false ∧
    (pause (start s replies true)).m_downloading = false ∧
    (pause (start s replies true)).m_paused = false := by
  have hdir2 : s.m_saveDirectory.isEmpty = false := by
    cases hs : s.m_saveDirectory with
    | nil => exact absurd hs hdir
    | cons _ _ => rfl
  have hstart : start s replies true
      = start_internal { s with m_fileInfo :=
          (getRemoteFileInfo s.m_url defaultTryTimes defaultTimeout none replies).info } true := by
    simp [start, hd, hp, hv, hdir2]
  have hb2 : breakpointSupported { s with m_fileInfo :=
      (getRemoteFileInfo s.m_url defaultTryTimes defaultTimeout none replies).info } = false := hb
  obtain ⟨f1, f2, f3, f4, f5, f6⟩ := start_internal_fresh_file
    { s with m_fileInfo :=
      (getRemoteFileInfo s.m_url defaultTryTimes defaultTimeout none replies).info } hd
    (by rw [hb2]; rfl)
  rw [← hstart] at f1 f2 f3 f4 f5 f6
  have hb3 : breakpointSupported (start s replies true) = false := by
    unfold breakpointSupported
    rw [f5]
    exact hb
  have hsuf : QFileInfo.suffix (start s replies true).m_file.fileName
      = (start s replies true).m_downloadingPostfix := by
    rw [f1, f6]
    exact working_file_carries_postfix s.disk _ s.m_saveDirectory s.m_downloadingPostfix hname
      hdir hpf h1 h2
  obtain ⟨_, g2, g3, _, _, _, _, g8⟩ :=
    pause_without_breakpoint_is_stop_core (start s replies true) f3 f4 hb3
  exact ⟨f3, f2, g8 hsuf, g2, g3⟩

/-! ## `start` during a transfer -/

/-- C12: in every session state in which a transfer is active, `start()`
changes nothing: the state after the call, with the open working file, the
in-flight request and the disk, is the state before it, and the call issues
no HEAD request and no GET request. -/
theorem start_while_downloading_is_noop (s : State) (replies : Nat → HeadReply)
    (openOk : Bool) (hd : s.m_downloading = true) :
    start s replies openOk = s ∧ startRequests s replies openOk = (0, 0) := by
  cases hp : s.m_paused <;> simp [start, startRequests, hd, hp]

/-- C12 at a concrete input: the started session, whose file is open and whose
request is in flight. -/
theorem start_while_downloading_is_noop_example :
    startedSession.m_downloading = true ∧
    startedSession.m_file.openMode = some OpenMode.truncate ∧
    startedSession.m_reply = some { url := fileZipUrl, range := none } ∧
    (start startedSession headOk true = startedSession ∧
      startRequests startedSession headOk true = (0, 0)) :=
  ⟨by decide, by decide, by decide,
    start_while_downloading_is_noop startedSession headOk true (by decide)⟩

/-! ## The idle session -/

/-- C13, at a file that cannot be opened: after `setUrl` and a `start()` whose
`m_file.open` fails, the session is neither downloading nor paused and its
file information still names `file.zip`; and after `start()`, a progress
report of 400 of 1000 bytes, `pause()` and a `resume()` whose `m_file.open`
fails, the session is neither downloading nor paused and still holds 400
received bytes, 1000 total bytes and 400 bytes of earlier runs. -/
theorem failed_open_leaves_stale_fields :
    (run freshSession [.setUrl fileZipUrl, .start headOk false]).map
        (fun s : State =>
          (s.m_downloading, s.m_paused, s.m_fileInfo.fileName, s.m_fileInfo.fileSize))
      = some (false, false, QString.fromUtf8 "file.zip", (1000 : Int)) ∧
    (run freshSession [.setUrl fileZipUrl, .start headOk true, .progressChanged 400 1000 10,
        .pause, .resume false]).map
        (fun s : State => (s.m_downloading, s.m_paused, s.m_fileInfo.fileName))
      = some (false, false, QString.fromUtf8 "file.zip") ∧
    (run freshSession [.setUrl fileZipUrl, .start headOk true, .progressChanged 400 1000 10,
        .pause, .resume false]).map
        (fun s : State => (s.m_receivedBytes, s.m_totalBytes, s.m_currentReceivedBytes))
      = some ((400 : Int), (1000 : Int), (400 : Int)) := by
  decide

/-- When the file can be opened, `start_internal` in a session that is not
downloading begins a transfer. -/
theorem start_internal_running (x : State) (hd : x.m_downloading = false) :
    (start_internal x true).m_downloading = true ∧ (start_internal x true).m_paused = false ∧
    (start_internal x true).m_reply ≠ none := by
  unfold start_internal
  simp [hd]

theorem idleInvariant_of_running (s : State) (hd : s.m_downloading = true)
    (hp : s.m_paused = false) : idleInvariant s :=
  ⟨fun h => by rw [hd] at h; exact absurd h (by decide), fun _ => ⟨hd, hp⟩⟩

theorem idleInvariant_init (applicationDirPath : QString) (disk : Disk) :
    idleInvariant (State.init applicationDirPath disk) := by
  refine ⟨fun _ _ => ?_, fun h => absurd rfl h⟩
  simp [State.init, transferFieldsDefault]

theorem idleInvariant_stop (s : State) : idleInvariant (stop s) := by
  obtain ⟨_, _, h3, _, h5, _, _⟩ := stop_fields s
  exact ⟨fun _ _ => h3, fun h => absurd h5 h⟩

theorem idleInvariant_start (s : State) (replies : Nat → HeadReply)
    (h : idleInvariant s) : idleInvariant (start s replies true) := by
  unfold start
  split_ifs with h1 h2 h3
  · exact h
  · exact h
  · exact h
  · have hd : s.m_downloading = false := by simpa using h2
    obtain ⟨a, b, _⟩ := start_internal_running
      { s with m_fileInfo :=
        (getRemoteFileInfo s.m_url defaultTryTimes defaultTimeout none replies).info } hd
    exact idleInvariant_of_running _ a b

theorem idleInvariant_pause (s : State) (h : idleInvariant s) : idleInvariant (pause s) := by
  unfold pause
  split_ifs with h1 h2
  · exact h
  · exact idleInvariant_stop s
  · refine ⟨fun _ hp => ?_, fun hr => ?_⟩
    · simp [stopDownload, closeFile] at hp
    · simp [stopDownload, closeFile] at hr

theorem idleInvariant_resume (s : State) (h : idleInvariant s) :
    idleInvariant (resume s true) := by
  unfold resume
  split_ifs with h1
  · exact h
  · have hd : s.m_downloading = false := by
      cases hs : s.m_downloading with
      | false => rfl
      | true => simp [hs] at h1
    obtain ⟨a, b, _⟩ := start_internal_running { s with m_paused := false } hd
    exact idleInvariant_of_running _ a b

theorem idleInvariant_onProgressChanged (s : State) (received total elapsed : Int)
    (h : idleInvariant s) : idleInvariant (onProgressChanged s received total elapsed) := by
  unfold onProgressChanged
  split_ifs with h1
  · exact h
  · have hd : s.m_downloading = true := by simpa using h1
    refine ⟨fun hd2 => ?_, fun hr => ?_⟩
    · have hd3 : s.m_downloading = false := hd2
      rw [hd] at hd3
      exact absurd hd3 (by decide)
    · exact h.2 hr

theorem idleInvariant_onFinished (s s1 : State) (reply : ReplyOutcome)
    (replies : Nat → HeadReply) (h : idleInvariant s)
    (hs : onFinished s reply replies true = some s1) : idleInvariant s1 := by
  cases hr : s.m_reply with
  | none => simp [onFinished, hr] at hs
  | some r =>
    have hrun := h.2 (by rw [hr]; exact Option.some_ne_none r)
    cases hred : reply.redirect with
    | some target =>
      obtain ⟨x, hx, _, hxd, _⟩ := onFinished_redirect s r target reply.error replies true hr
        hrun.2
      have hreply : reply = ⟨some target, reply.error⟩ := by
        cases reply
        simp_all
      rw [hreply, hx] at hs
      have hs1 : start_internal x true = s1 := Option.some.inj hs
      obtain ⟨a, b, _⟩ := start_internal_running x hxd
      rw [← hs1]
      exact idleInvariant_of_running _ a b
    | none =>
      simp only [onFinished, hr, closeFile, hrun.2, hred, Bool.false_eq_true, if_false] at hs
      have hs1 := Option.some.inj hs
      rw [← hs1]
      obtain ⟨r1, _, _, _, r5, _, _⟩ := resetData_fields
        { (if (!reply.error) = true then
            renameFile { s with m_downloading := false,
                                m_file := { s.m_file with openMode := none } }
              (joinPath s.m_saveDirectory (QFileInfo.completeBaseName s.m_file.fileName))
          else removeFile { s with m_downloading := false,
                                   m_file := { s.m_file with openMode := none } })
          with m_reply := none }
      exact ⟨fun _ _ => r1, fun hne => absurd r5 hne⟩

/-- Every event whose `m_file.open` succeeds keeps the invariant. -/
theorem idleInvariant_step (s s1 : State) (e : Event) (h : idleInvariant s)
    (ho : e.opensFile = true) (hs : step s e = some s1) : idleInvariant s1 := by
  cases e with
  | setUrl value =>
    have : s1 = setUrl s value := (Option.some.inj hs).symm
    rw [this]
    unfold setUrl
    split_ifs
    · exact h
    · exact h
    · exact h
  | setSaveDirectory value =>
    have : s1 = setSaveDirectory s value := (Option.some.inj hs).symm
    rw [this]
    unfold setSaveDirectory
    split_ifs
    · exact h
    · exact h
    · exact h
  | setTimeout value =>
    have : s1 = setTimeout s value := (Option.some.inj hs).symm
    rw [this]
    unfold setTimeout
    split_ifs
    · exact h
    · exact h
    · exact h
  | setDownloadingPostfix val =>
    have : s1 = setDownloadingPostfix s val := (Option.some.inj hs).symm
    rw [this]
    unfold setDownloadingPostfix
    split_ifs
    · exact h
    · exact h
    · exact h
    · exact h
  | start replies openOk =>
    have ho2 : openOk = true := ho
    subst ho2
    have : s1 = start s replies true := (Option.some.inj hs).symm
    rw [this]
    exact idleInvariant_start s replies h
  | pause =>
    have : s1 = pause s := (Option.some.inj hs).symm
    rw [this]
    exact idleInvariant_pause s h
  | resume openOk =>
    have ho2 : openOk = true := ho
    subst ho2
    have : s1 = resume s true := (Option.some.inj hs).symm
    rw [this]
    exact idleInvariant_resume s h
  | stop =>
    have : s1 = stop s := (Option.some.inj hs).symm
    rw [this]
    exact idleInvariant_stop s
  | progressChanged received total elapsed =>
    have : s1 = onProgressChanged s received total elapsed := (Option.some.inj hs).symm
    rw [this]
    exact idleInvariant_onProgressChanged s received total elapsed h
  | finished reply replies openOk =>
    have ho2 : openOk = true := ho
    subst ho2
    exact idleInvariant_onFinished s s1 reply replies h hs

/-- Every sequence of events whose opens succeed keeps the invariant. -/
theorem idleInvariant_run :
    ∀ (events : List Event) (s s1 : State), idleInvariant s →
      (∀ e ∈ events, e.opensFile = true) → run s events = some s1 → idleInvariant s1
  | [], s, s1, h, _, hr => by
    have : s = s1 := Option.some.inj hr
    rw [← this]
    exact h
  | e :: es, s, s1, h, ho, hr => by
    cases hst : step s e with
    | none => simp [run, hst] at hr
    | some s2 =>
      simp only [run, hst] at hr
      exact idleInvariant_run es s2 s1
        (idleInvariant_step s s2 e h (ho e (List.mem_cons_self e es)) hst)
        (fun e1 he1 => ho e1 (List.mem_cons_of_mem e he1)) hr

/-- As long as every `m_file.open` succeeds, a state reached from
construction that is neither downloading nor paused has its transfer fields
at their defaults. -/
theorem idle_fields_default_while_files_open (applicationDirPath : QString) (disk : Disk)
    (events : List Event) (s : State) (ho : ∀ e ∈ events, e.opensFile = true)
    (hr : run (State.init applicationDirPath disk) events = some s)
    (hd : s.m_downloading = false) (hp : s.m_paused = false) : transferFieldsDefault s :=
  (idleInvariant_run events (State.init applicationDirPath disk) s
    (idleInvariant_init applicationDirPath disk) ho hr).1 hd hp

/-! ## The arithmetic of `double` -/

theorem roundHalfEven_floor_le (x : ℚ) : ⌊x⌋ ≤ roundHalfEven x := by
  unfold roundHalfEven
  split_ifs <;> omega

theorem roundHalfEven_le_floor_succ (x : ℚ) : roundHalfEven x ≤ ⌊x⌋ + 1 := by
  unfold roundHalfEven
  split_ifs <;> omega

/-- The rounded value is within one half of the argument. -/
theorem roundHalfEven_near (x : ℚ) :
    (roundHalfEven x : ℚ) ≤ x + 1 / 2 ∧ x - 1 / 2 ≤ (roundHalfEven x : ℚ) := by
  have h1 := Int.floor_le x
  have h2 := Int.lt_floor_add_one x
  unfold roundHalfEven
  split_ifs with ha hb hc
  · constructor <;> linarith
  · constructor
    · push_cast
      linarith
    · push_cast
      linarith
  · constructor <;> linarith
  · have : x - ⌊x⌋ = 1 / 2 := le_antisymm (not_lt.mp hb) (not_lt.mp ha)
    constructor
    · push_cast
      linarith
    · push_cast
      linarith

theorem roundHalfEven_intCast (z : Int) : roundHalfEven (z : ℚ) = z := by
  unfold roundHalfEven
  simp

theorem le_roundHalfEven (x : ℚ) (n : Int) (h : (n : ℚ) ≤ x) : n ≤ roundHalfEven x :=
  le_trans (Int.le_floor.mpr h) (roundHalfEven_floor_le x)

theorem roundHalfEven_le (x : ℚ) (n : Int) (h : x ≤ (n : ℚ)) : roundHalfEven x ≤ n := by
  rcases eq_or_lt_of_le h with heq | hlt
  · rw [heq, roundHalfEven_intCast]
  · have : ⌊x⌋ < n := Int.floor_lt.mpr hlt
    have := roundHalfEven_le_floor_succ x
    omega

theorem roundHalfEven_of_lt_half (x : ℚ) (f : Int) (h1 : (f : ℚ) ≤ x) (h2 : x < f + 1 / 2) :
    roundHalfEven x = f := by
  have hf : ⌊x⌋ = f := Int.floor_eq_iff.mpr ⟨h1, by linarith⟩
  unfold roundHalfEven
  rw [hf]
  have : x - (f : ℚ) < 1 / 2 := by linarith
  rw [if_pos this]

theorem roundHalfEven_of_tie_odd (x : ℚ) (f : Int) (h : x = f + 1 / 2) (hodd : f % 2 = 1) :
    roundHalfEven x = f + 1 := by
  have hf : ⌊x⌋ = f := Int.floor_eq_iff.mpr ⟨by linarith, by linarith⟩
  unfold roundHalfEven
  rw [hf]
  have h1 : ¬ (x - (f : ℚ) < 1 / 2) := by
    rw [h]
    norm_num
  have h2 : ¬ ((1 : ℚ) / 2 < x - (f : ℚ)) := by
    rw [h]
    norm_num
  have h3 : ¬ (f % 2 = 0) := by omega
  rw [if_neg h1, if_neg h2, if_neg h3]

/-- The binade of a positive number that lies between two consecutive powers
of two. -/
theorem log_two_eq (x : ℚ) (k : Int) (h1 : (2 : ℚ) ^ k ≤ x) (h2 : x < (2 : ℚ) ^ (k + 1)) :
    Int.log 2 x = k := by
  have hx : 0 < x := lt_of_lt_of_le (zpow_pos (by norm_num) k) h1
  have a : k ≤ Int.log 2 x := (Int.zpow_le_iff_le_log (by norm_num) hx).mp (by exact_mod_cast h1)
  have b : Int.log 2 x < k + 1 :=
    (Int.lt_zpow_iff_log_lt (by norm_num) hx).mp (by exact_mod_cast h2)
  omega

/-- Rounding of a positive number of the normal range, binade given. -/
theorem roundDouble_of_binade (x : ℚ) (k : Int) (h1 : (2 : ℚ) ^ k ≤ x)
    (h2 : x < (2 : ℚ) ^ (k + 1)) (hmin : -1022 ≤ k) (hmax : k ≤ 1022) :
    roundDouble x = .val ((roundHalfEven (x / 2 ^ (k - 52)) : ℚ) * 2 ^ (k - 52)) ∧
    (2 : ℚ) ^ k ≤ (roundHalfEven (x / 2 ^ (k - 52)) : ℚ) * 2 ^ (k - 52) ∧
    (roundHalfEven (x / 2 ^ (k - 52)) : ℚ) * 2 ^ (k - 52) ≤ (2 : ℚ) ^ (k + 1) := by
  have hx : 0 < x := lt_of_lt_of_le (zpow_pos (by norm_num) k) h1
  have hu : (0 : ℚ) < 2 ^ (k - 52) := zpow_pos (by norm_num) _
  have hk : (2 : ℚ) ^ k = 2 ^ (52 : Int) * 2 ^ (k - 52) := by
    rw [← zpow_add₀ (by norm_num : (2 : ℚ) ≠ 0)]
    congr 1
    omega
  have hk1 : (2 : ℚ) ^ (k + 1) = 2 ^ (53 : Int) * 2 ^ (k - 52) := by
    rw [← zpow_add₀ (by norm_num : (2 : ℚ) ≠ 0)]
    congr 1
    omega
  have hm1 : ((2 ^ 52 : Int) : ℚ) ≤ x / 2 ^ (k - 52) := by
    rw [le_div_iff₀ hu]
    have : ((2 ^ 52 : Int) : ℚ) = 2 ^ (52 : Int) := by norm_num
    rw [this, ← hk]
    exact h1
  have hm2 : x / 2 ^ (k - 52) ≤ ((2 ^ 53 : Int) : ℚ) := by
    rw [div_le_iff₀ hu]
    have : ((2 ^ 53 : Int) : ℚ) = 2 ^ (53 : Int) := by norm_num
    rw [this, ← hk1]
    exact le_of_lt h2
  have hr1 : (2 ^ 52 : Int) ≤ roundHalfEven (x / 2 ^ (k - 52)) := le_roundHalfEven _ _ hm1
  have hr2 : roundHalfEven (x / 2 ^ (k - 52)) ≤ (2 ^ 53 : Int) := roundHalfEven_le _ _ hm2
  have hy1 : (2 : ℚ) ^ k ≤ (roundHalfEven (x / 2 ^ (k - 52)) : ℚ) * 2 ^ (k - 52) := by
    rw [hk]
    apply mul_le_mul_of_nonneg_right _ (le_of_lt hu)
    have h52 : ((2 ^ 52 : Int) : ℚ) ≤ (roundHalfEven (x / 2 ^ (k - 52)) : ℚ) := by
      exact_mod_cast hr1
    have e52 : ((2 ^ 52 : Int) : ℚ) = 2 ^ (52 : Int) := by norm_num
    rw [e52] at h52
    exact h52
  have hy2 : (roundHalfEven (x / 2 ^ (k - 52)) : ℚ) * 2 ^ (k - 52) ≤ (2 : ℚ) ^ (k + 1) := by
    rw [hk1]
    apply mul_le_mul_of_nonneg_right _ (le_of_lt hu)
    have h53 : (roundHalfEven (x / 2 ^ (k - 52)) : ℚ) ≤ ((2 ^ 53 : Int) : ℚ) := by
      exact_mod_cast hr2
    have e53 : ((2 ^ 53 : Int) : ℚ) = 2 ^ (53 : Int) := by norm_num
    rw [e53] at h53
    exact h53
  refine ⟨?_, hy1, hy2⟩
  have hlog : Int.log 2 |x| = k := by
    rw [abs_of_pos hx]
    exact log_two_eq x k h1 h2
  have hmaxk : max k (-1022) = k := max_eq_left hmin
  have hy0 : (0 : ℚ) ≤ (roundHalfEven (x / 2 ^ (k - 52)) : ℚ) * 2 ^ (k - 52) :=
    le_trans (le_of_lt (zpow_pos (by norm_num) k)) hy1
  have hnot : ¬ ((2 : ℚ) ^ (1024 : Int)
      ≤ |(roundHalfEven (x / 2 ^ (k - 52)) : ℚ) * 2 ^ (k - 52)|) := by
    rw [abs_of_nonneg hy0, not_le]
    refine lt_of_le_of_lt hy2 ?_
    exact zpow_lt_zpow_right₀ (by norm_num) (by omega)
  unfold roundDouble
  simp only [ne_of_gt hx, if_false, hlog, hmaxk, hnot]

/-- Rounding of a positive number of the normal range: the result is a number
of the same binade, its upper end included, at most half a unit in the last
place from the argument. -/
theorem roundDouble_pos_spec (x : ℚ) (hlo : (2 : ℚ) ^ (-1022 : Int) ≤ x)
    (hhi : x < (2 : ℚ) ^ (1023 : Int)) :
    ∃ (y : ℚ) (k : Int), roundDouble x = .val y ∧ (2 : ℚ) ^ k ≤ x ∧ x < (2 : ℚ) ^ (k + 1) ∧
      (2 : ℚ) ^ k ≤ y ∧ y ≤ (2 : ℚ) ^ (k + 1) ∧
      y ≤ x + (2 : ℚ) ^ (k - 53) ∧ x - (2 : ℚ) ^ (k - 53) ≤ y := by
  have hx : 0 < x := lt_of_lt_of_le (zpow_pos (by norm_num) _) hlo
  have h1 : (2 : ℚ) ^ (Int.log 2 x) ≤ x := by
    exact_mod_cast Int.zpow_log_le_self (b := 2) (by norm_num) hx
  have h2 : x < (2 : ℚ) ^ (Int.log 2 x + 1) := by
    exact_mod_cast Int.lt_zpow_succ_log_self (b := 2) (by norm_num) x
  have hmin : -1022 ≤ Int.log 2 x :=
    (Int.zpow_le_iff_le_log (by norm_num) hx).mp (by exact_mod_cast hlo)
  have hmax : Int.log 2 x < 1023 :=
    (Int.lt_zpow_iff_log_lt (by norm_num) hx).mp (by exact_mod_cast hhi)
  obtain ⟨r1, r2, r3⟩ := roundDouble_of_binade x (Int.log 2 x) h1 h2 hmin (by omega)
  have hu : (0 : ℚ) < 2 ^ (Int.log 2 x - 52) := zpow_pos (by norm_num) _
  have hhalf : (2 : ℚ) ^ (Int.log 2 x - 53) = 1 / 2 * 2 ^ (Int.log 2 x - 52) := by
    have : Int.log 2 x - 53 = -1 + (Int.log 2 x - 52) := by omega
    rw [this, zpow_add₀ (by norm_num : (2 : ℚ) ≠ 0)]
    norm_num
  have hmu : x / 2 ^ (Int.log 2 x - 52) * 2 ^ (Int.log 2 x - 52) = x :=
    div_mul_cancel₀ x (ne_of_gt hu)
  obtain ⟨n1, n2⟩ := roundHalfEven_near (x / 2 ^ (Int.log 2 x - 52))
  have m1 := mul_le_mul_of_nonneg_right n1 (le_of_lt hu)
  have m2 := mul_le_mul_of_nonneg_right n2 (le_of_lt hu)
  rw [add_mul, hmu] at m1
  rw [sub_mul, hmu] at m2
  refine ⟨_, Int.log 2 x, r1, h1, h2, r2, r3, ?_, ?_⟩
  · rw [hhalf]
    exact m1
  · rw [hhalf]
    exact m2

/-- Rounding keeps a number on its side of a power of two, as long as the
number is not within half a unit in the last place below it; and the relative
error is at most `2 ^ (-53)`. -/
theorem roundDouble_threshold (x : ℚ) (hlo : (2 : ℚ) ^ (-1022 : Int) ≤ x)
    (hhi : x < (2 : ℚ) ^ (1023 : Int)) :
    ∃ y : ℚ, roundDouble x = .val y ∧
      (∀ j : Int, x + (2 : ℚ) ^ (j - 54) < (2 : ℚ) ^ j → y < (2 : ℚ) ^ j) ∧
      (∀ j : Int, (2 : ℚ) ^ j ≤ x → (2 : ℚ) ^ j ≤ y) ∧
      |y - x| ≤ x * (2 : ℚ) ^ (-53 : Int) := by
  obtain ⟨y, k, hy, h1, h2, h3, h4, h5, h6⟩ := roundDouble_pos_spec x hlo hhi
  have htwo : (1 : ℚ) < 2 := by norm_num
  refine ⟨y, hy, ?_, ?_, ?_⟩
  · intro j hj
    have hpos : (0 : ℚ) < 2 ^ (j - 54) := zpow_pos (by norm_num) _
    have hxj : (2 : ℚ) ^ k < (2 : ℚ) ^ j := lt_of_le_of_lt h1 (by linarith)
    have hkj : k < j := (zpow_lt_zpow_iff_right₀ htwo).mp hxj
    by_cases hc : k = j - 1
    · have : (2 : ℚ) ^ (k - 53) = (2 : ℚ) ^ (j - 54) := by
        congr 1
        omega
      rw [this] at h5
      linarith
    · have hle : (2 : ℚ) ^ (k + 1) ≤ (2 : ℚ) ^ (j - 1) :=
        zpow_le_zpow_right₀ (le_of_lt htwo) (by omega)
      have hlt : (2 : ℚ) ^ (j - 1) < (2 : ℚ) ^ j := zpow_lt_zpow_right₀ htwo (by omega)
      linarith
  · intro j hj
    have hxj : (2 : ℚ) ^ j < (2 : ℚ) ^ (k + 1) := lt_of_le_of_lt hj h2
    have hjk : j < k + 1 := (zpow_lt_zpow_iff_right₀ htwo).mp hxj
    have hle : (2 : ℚ) ^ j ≤ (2 : ℚ) ^ k := zpow_le_zpow_right₀ (le_of_lt htwo) (by omega)
    linarith
  · have hulp : (2 : ℚ) ^ (k - 53) = (2 : ℚ) ^ k * (2 : ℚ) ^ (-53 : Int) := by
      rw [← zpow_add₀ (by norm_num : (2 : ℚ) ≠ 0)]
      congr 1
    have hle : (2 : ℚ) ^ (k - 53) ≤ x * (2 : ℚ) ^ (-53 : Int) := by
      rw [hulp]
      exact mul_le_mul_of_nonneg_right h1 (le_of_lt (zpow_pos (by norm_num) _))
    rw [abs_le]
    constructor <;> linarith

/-- An integer below `2 ^ 53` is a `double`: rounding leaves it as it is. -/
theorem roundDouble_intCast (n : Int) (h0 : 0 ≤ n) (h : n < 2 ^ 53) :
    roundDouble (n : ℚ) = .val (n : ℚ) := by
  rcases eq_or_lt_of_le h0 with hz | hpos
  · rw [← hz]
    simp [roundDouble]
  · have hx : (0 : ℚ) < (n : ℚ) := by exact_mod_cast hpos
    have h1 : (2 : ℚ) ^ (Int.log 2 (n : ℚ)) ≤ (n : ℚ) := by
      exact_mod_cast Int.zpow_log_le_self (b := 2) (by norm_num) hx
    have h2 : (n : ℚ) < (2 : ℚ) ^ (Int.log 2 (n : ℚ) + 1) := by
      exact_mod_cast Int.lt_zpow_succ_log_self (b := 2) (by norm_num) (n : ℚ)
    have hone : (2 : ℚ) ^ (0 : Int) ≤ (n : ℚ) := by
      have : (1 : ℚ) ≤ (n : ℚ) := by exact_mod_cast hpos
      simpa using this
    have hmin : 0 ≤ Int.log 2 (n : ℚ) :=
      (Int.zpow_le_iff_le_log (by norm_num) hx).mp (by exact_mod_cast hone)
    have hlt : (n : ℚ) < (2 : ℚ) ^ (53 : Int) := by
      have h53 : (n : ℚ) < ((2 ^ 53 : Int) : ℚ) := by exact_mod_cast h
      have e53 : ((2 ^ 53 : Int) : ℚ) = 2 ^ (53 : Int) := by norm_num
      rw [e53] at h53
      exact h53
    have hmax : Int.log 2 (n : ℚ) < 53 :=
      (Int.lt_zpow_iff_log_lt (by norm_num) hx).mp (by exact_mod_cast hlt)
    obtain ⟨r1, _, _⟩ := roundDouble_of_binade (n : ℚ) (Int.log 2 (n : ℚ)) h1 h2 (by omega)
      (by omega)
    rw [r1]
    obtain ⟨d, hd⟩ : ∃ d : Nat, (d : Int) = 52 - Int.log 2 (n : ℚ) :=
      ⟨(52 - Int.log 2 (n : ℚ)).toNat, Int.toNat_of_nonneg (by omega)⟩
    have hexp : Int.log 2 (n : ℚ) - 52 = -(d : Int) := by omega
    have hpow : (2 : ℚ) ^ (Int.log 2 (n : ℚ) - 52) = ((2 : ℚ) ^ d)⁻¹ := by
      rw [hexp, zpow_neg, zpow_natCast]
    have hd0 : (2 : ℚ) ^ d ≠ 0 := pow_ne_zero d (by norm_num)
    have hm : (n : ℚ) / 2 ^ (Int.log 2 (n : ℚ) - 52) = ((n * 2 ^ d : Int) : ℚ) := by
      rw [hpow]
      push_cast
      field_simp
    rw [hm, roundHalfEven_intCast, hpow]
    push_cast
    field_simp

/-- An integer below `2 ^ 53` times a power of two is a `double`: rounding
leaves it as it is. -/
theorem roundDouble_scaled (m : Int) (t : Nat) (h0 : 0 ≤ m) (h : m < 2 ^ 53) (ht : t ≤ 960) :
    roundDouble ((m : ℚ) * 2 ^ t) = .val ((m : ℚ) * 2 ^ t) := by
  rcases eq_or_lt_of_le h0 with hz | hpos
  · rw [← hz]
    simp [roundDouble]
  · have hx : (0 : ℚ) < (m : ℚ) := by exact_mod_cast hpos
    have ht0 : (0 : ℚ) < (2 : ℚ) ^ t := pow_pos (by norm_num) t
    have h1 : (2 : ℚ) ^ (Int.log 2 (m : ℚ)) ≤ (m : ℚ) := by
      exact_mod_cast Int.zpow_log_le_self (b := 2) (by norm_num) hx
    have h2 : (m : ℚ) < (2 : ℚ) ^ (Int.log 2 (m : ℚ) + 1) := by
      exact_mod_cast Int.lt_zpow_succ_log_self (b := 2) (by norm_num) (m : ℚ)
    have hone : (2 : ℚ) ^ (0 : Int) ≤ (m : ℚ) := by
      have : (1 : ℚ) ≤ (m : ℚ) := by exact_mod_cast hpos
      simpa using this
    have hmin : 0 ≤ Int.log 2 (m : ℚ) :=
      (Int.zpow_le_iff_le_log (by norm_num) hx).mp (by exact_mod_cast hone)
    have hlt : (m : ℚ) < (2 : ℚ) ^ (53 : Int) := by
      have h53 : (m : ℚ) < ((2 ^ 53 : Int) : ℚ) := by exact_mod_cast h
      have e53 : ((2 ^ 53 : Int) : ℚ) = 2 ^ (53 : Int) := by norm_num
      rw [e53] at h53
      exact h53
    have hmax : Int.log 2 (m : ℚ) < 53 :=
      (Int.lt_zpow_iff_log_lt (by norm_num) hx).mp (by exact_mod_cast hlt)
    have hsplit : ∀ z : Int, (2 : ℚ) ^ (z + (t : Int)) = (2 : ℚ) ^ z * (2 : ℚ) ^ t := by
      intro z
      rw [zpow_add₀ (by norm_num : (2 : ℚ) ≠ 0), zpow_natCast]
    have b1 : (2 : ℚ) ^ (Int.log 2 (m : ℚ) + (t : Int)) ≤ (m : ℚ) * 2 ^ t := by
      rw [hsplit]
      exact mul_le_mul_of_nonneg_right h1 (le_of_lt ht0)
    have b2 : (m : ℚ) * 2 ^ t < (2 : ℚ) ^ (Int.log 2 (m : ℚ) + (t : Int) + 1) := by
      have : Int.log 2 (m : ℚ) + (t : Int) + 1 = Int.log 2 (m : ℚ) + 1 + (t : Int) := by omega
      rw [this, hsplit]
      exact mul_lt_mul_of_pos_right h2 ht0
    obtain ⟨r1, _, _⟩ := roundDouble_of_binade ((m : ℚ) * 2 ^ t)
      (Int.log 2 (m : ℚ) + (t : Int)) b1 b2 (by omega) (by omega)
    rw [r1]
    obtain ⟨d, hd⟩ : ∃ d : Nat, (d : Int) = 52 - Int.log 2 (m : ℚ) :=
      ⟨(52 - Int.log 2 (m : ℚ)).toNat, Int.toNat_of_nonneg (by omega)⟩
    have hexp : Int.log 2 (m : ℚ) + (t : Int) - 52 = -(d : Int) + (t : Int) := by omega
    have hpow : (2 : ℚ) ^ (Int.log 2 (m : ℚ) + (t : Int) - 52) = ((2 : ℚ) ^ d)⁻¹ * 2 ^ t := by
      rw [hexp, hsplit, zpow_neg, zpow_natCast]
    have hd0 : (2 : ℚ) ^ d ≠ 0 := pow_ne_zero d (by norm_num)
    have hm : (m : ℚ) * 2 ^ t / 2 ^ (Int.log 2 (m : ℚ) + (t : Int) - 52)
        = ((m * 2 ^ d : Int) : ℚ) := by
      rw [hpow]
      push_cast
      field_simp
      ring
    rw [hm, roundHalfEven_intCast, hpow]
    push_cast
    field_simp
    ring

/-- Rounding of a positive number whose binade and rounded mantissa are known. -/
theorem roundDouble_eval (x : ℚ) (k m : Int) (h1 : (2 : ℚ) ^ k ≤ x)
    (h2 : x < (2 : ℚ) ^ (k + 1)) (hmin : -1022 ≤ k) (hmax : k ≤ 1022)
    (hm : roundHalfEven (x / 2 ^ (k - 52)) = m) :
    roundDouble x = .val ((m : ℚ) * 2 ^ (k - 52)) := by
  rw [← hm]
  exact (roundDouble_of_binade x k h1 h2 hmin hmax).1

/-- The speed that `onProgressChangedDouble` publishes, once the rounded
rate is known to be the finite number `y`. -/
theorem onProgressChangedDouble_speed (s : State) (received total elapsed : Int) (y : ℚ)
    (hd : s.m_downloading = true)
    (hv : QReal.divDouble (QReal.mulDouble (QReal.ofIntDouble received) (.val 1000))
      (QReal.ofIntDouble elapsed) = .val y) :
    (onProgressChangedDouble s received total elapsed).m_speed =
      if y < 1024 then { value := .val y, unit := QString.fromUtf8 "B/s" }
      else if y < 1024 * 1024 then
        { value := QReal.divDouble (.val y) (.val 1024), unit := QString.fromUtf8 "KB/s" }
      else
        { value := QReal.divDouble (.val y) (.val (1024 * 1024)),
          unit := QString.fromUtf8 "MB/s" } := by
  simp only [onProgressChangedDouble, hd, hv, QReal.lt, Bool.not_true, Bool.false_eq_true,
    if_false, decide_eq_true_eq]

theorem mulDouble_val (a b : ℚ) :
    QReal.mulDouble (.val a) (.val b) = roundDouble (a * b) := rfl

theorem divDouble_val (a b : ℚ) (hb : b ≠ 0) :
    QReal.divDouble (.val a) (.val b) = roundDouble (a / b) := by
  simp only [QReal.divDouble, QReal.div, if_neg hb, QReal.round]

/-- For a byte count with `b * 1000 < 2 ^ 56` and an elapsed time below
`2 ^ 53` the conversions and the product are exact (the product is a multiple
of 8), and the rate that the callback computes is the exact rate rounded
once. -/
theorem rate_double (b e : Int) (hb : 0 ≤ b) (hb2 : b * 1000 < 2 ^ 56) (he : 0 < e)
    (he2 : e < 2 ^ 53) :
    QReal.divDouble (QReal.mulDouble (QReal.ofIntDouble b) (.val 1000)) (QReal.ofIntDouble e)
      = roundDouble ((b : ℚ) * 1000 / (e : ℚ)) := by
  have hne : (e : ℚ) ≠ 0 := by
    exact_mod_cast (ne_of_gt he)
  have c1 : roundDouble (b : ℚ) = .val (b : ℚ) := roundDouble_intCast b hb (by omega)
  have c2 : roundDouble (e : ℚ) = .val (e : ℚ) := roundDouble_intCast e (le_of_lt he) he2
  have c3 : roundDouble ((b : ℚ) * 1000) = .val ((b : ℚ) * 1000) := by
    have h := roundDouble_scaled (125 * b) 3 (by omega) (by omega) (by norm_num)
    have hq : ((125 * b : Int) : ℚ) * 2 ^ 3 = (b : ℚ) * 1000 := by
      push_cast
      ring
    rw [hq] at h
    exact h
  rw [QReal.ofIntDouble, QReal.ofIntDouble, c1, c2, mulDouble_val, c3, divDouble_val _ _ hne]

/-- The rounding of the rate, for `b * 1000 < 2 ^ 56` and `e < 2 ^ 53`: the
rounded rate is on the same side of 1024 and of `1024 * 1024` as the exact
rate, and differs from it by a relative error of at most `2 ^ (-53)`. -/
theorem rate_rounding (b e : Int) (hb : 0 ≤ b) (hb2 : b * 1000 < 2 ^ 56) (he : 0 < e)
    (he2 : e < 2 ^ 53) :
    ∃ y : ℚ, roundDouble ((b : ℚ) * 1000 / (e : ℚ)) = .val y ∧
      ((b : ℚ) * 1000 / (e : ℚ) < 1024 → y < 1024) ∧
      (1024 ≤ (b : ℚ) * 1000 / (e : ℚ) → 1024 ≤ y) ∧
      ((b : ℚ) * 1000 / (e : ℚ) < 1024 * 1024 → y < 1024 * 1024) ∧
      (1024 * 1024 ≤ (b : ℚ) * 1000 / (e : ℚ) → 1024 * 1024 ≤ y) ∧
      |y - (b : ℚ) * 1000 / (e : ℚ)| ≤ (b : ℚ) * 1000 / (e : ℚ) * (2 : ℚ) ^ (-53 : Int) := by
  have hepos : (0 : ℚ) < (e : ℚ) := by exact_mod_cast he
  have he3 : (e : ℚ) < 9007199254740992 := by
    have : (e : ℚ) < ((2 ^ 53 : Int) : ℚ) := by exact_mod_cast he2
    norm_num at this
    exact this
  have hone : (1 : ℚ) ≤ (e : ℚ) := by exact_mod_cast he
  rcases eq_or_lt_of_le hb with hz | hpos
  · refine ⟨0, ?_, ?_, ?_, ?_, ?_, ?_⟩
    · rw [← hz]
      simp [roundDouble]
    · intro _
      norm_num
    · intro h
      rw [← hz] at h
      norm_num at h
    · intro _
      norm_num
    · intro h
      rw [← hz] at h
      norm_num at h
    · rw [← hz]
      simp
  · have hbq : (1 : ℚ) ≤ (b : ℚ) := by exact_mod_cast hpos
    have hb3 : (b : ℚ) * 1000 < 72057594037927936 := by
      have : ((b * 1000 : Int) : ℚ) < ((2 ^ 56 : Int) : ℚ) := by exact_mod_cast hb2
      push_cast at this
      exact this
    have hrate : (b : ℚ) * 1000 / (e : ℚ) * (e : ℚ) = (b : ℚ) * 1000 :=
      div_mul_cancel₀ _ (ne_of_gt hepos)
    have hlo : (2 : ℚ) ^ (-1022 : Int) ≤ (b : ℚ) * 1000 / (e : ℚ) := by
      have h1 : (2 : ℚ) ^ (-1022 : Int) ≤ (2 : ℚ) ^ (-53 : Int) :=
        zpow_le_zpow_right₀ (by norm_num) (by norm_num)
      have h2 : (2 : ℚ) ^ (-53 : Int) ≤ (b : ℚ) * 1000 / (e : ℚ) := by
        rw [le_div_iff₀ hepos]
        have : (2 : ℚ) ^ (-53 : Int) = 1 / 9007199254740992 := by norm_num
        rw [this]
        linarith
      exact le_trans h1 h2
    have hhi : (b : ℚ) * 1000 / (e : ℚ) < (2 : ℚ) ^ (1023 : Int) := by
      have h1 : (b : ℚ) * 1000 / (e : ℚ) ≤ (b : ℚ) * 1000 :=
        div_le_self (by linarith) hone
      have h2 : (72057594037927936 : ℚ) = (2 : ℚ) ^ (56 : Int) := by norm_num
      have h3 : (2 : ℚ) ^ (56 : Int) < (2 : ℚ) ^ (1023 : Int) :=
        zpow_lt_zpow_right₀ (by norm_num) (by norm_num)
      linarith
    obtain ⟨y, hy, ha, hbnd, herr⟩ :=
      roundDouble_threshold ((b : ℚ) * 1000 / (e : ℚ)) hlo hhi
    have p10 : (2 : ℚ) ^ (10 : Int) = 1024 := by norm_num
    have p20 : (2 : ℚ) ^ (20 : Int) = 1024 * 1024 := by norm_num
    refine ⟨y, hy, ?_, ?_, ?_, ?_, herr⟩
    · intro hlt
      have h1 : (b : ℚ) * 1000 < 1024 * (e : ℚ) := by rwa [div_lt_iff₀ hepos] at hlt
      have h2 : b * 1000 < 1024 * e := by exact_mod_cast h1
      have h3 : b * 1000 + 8 ≤ 1024 * e := by omega
      have h4 : (b : ℚ) * 1000 + 8 ≤ 1024 * (e : ℚ) := by exact_mod_cast h3
      have hc : (2 : ℚ) ^ ((10 : Int) - 54) = 1 / 17592186044416 := by norm_num
      have hm : (b : ℚ) * 1000 / (e : ℚ) + (2 : ℚ) ^ ((10 : Int) - 54) < (2 : ℚ) ^ (10 : Int) := by
        rw [hc, p10]
        apply lt_of_mul_lt_mul_right _ (le_of_lt hepos)
        rw [add_mul, hrate]
        rcases lt_or_le (e : ℚ) 140737488355328 with hsmall | hlarge
        · linarith
        · linarith
      have := ha 10 hm
      rwa [p10] at this
    · intro hge
      have := hbnd 10 (by rw [p10]; exact hge)
      rwa [p10] at this
    · intro hlt
      have h1 : (b : ℚ) * 1000 < 1024 * 1024 * (e : ℚ) := by rwa [div_lt_iff₀ hepos] at hlt
      have h2 : b * 1000 < 1024 * 1024 * e := by exact_mod_cast h1
      have h3 : b * 1000 + 8 ≤ 1024 * 1024 * e := by omega
      have h4 : (b : ℚ) * 1000 + 8 ≤ 1024 * 1024 * (e : ℚ) := by exact_mod_cast h3
      have hc : (2 : ℚ) ^ ((20 : Int) - 54) = 1 / 17179869184 := by norm_num
      have hm : (b : ℚ) * 1000 / (e : ℚ) + (2 : ℚ) ^ ((20 : Int) - 54) < (2 : ℚ) ^ (20 : Int) := by
        rw [hc, p20]
        apply lt_of_mul_lt_mul_right _ (le_of_lt hepos)
        rw [add_mul, hrate]
        rcases lt_or_le (e : ℚ) 137438953472 with hsmall | hlarge
        · linarith
        · linarith
      have := ha 20 hm
      rwa [p20] at this
    · intro hge
      have := hbnd 20 (by rw [p20]; exact hge)
      rwa [p20] at this

theorem speed_eq_m_speed (s : State) : speed s = s.m_speed := rfl

/-- The product `72651605837611 * 1000.0` lies half way between two doubles
and is rounded to the even one, 8 above. -/
theorem product_rounds_up :
    roundDouble (((72651605837611 : Int) : ℚ) * 1000)
      = .val ((4540725364850688 : Int) * 2 ^ ((56 : Int) - 52)) := by
  apply roundDouble_eval _ 56 4540725364850688 (by norm_num) (by norm_num) (by norm_num)
    (by norm_num)
  exact roundHalfEven_of_tie_odd _ 4540725364850687 (by norm_num) (by norm_num)

/-- The rate that the callback computes for 72651605837611 bytes in
69285970533 ms is `1024 * 1024`. -/
theorem rate_double_at_boundary :
    QReal.divDouble (QReal.mulDouble (QReal.ofIntDouble 72651605837611) (.val 1000))
      (QReal.ofIntDouble 69285970533) = .val ((1048576 : Int) : ℚ) := by
  rw [QReal.ofIntDouble, QReal.ofIntDouble,
    roundDouble_intCast 72651605837611 (by norm_num) (by norm_num),
    roundDouble_intCast 69285970533 (by norm_num) (by norm_num), mulDouble_val,
    product_rounds_up, divDouble_val _ _ (by norm_num)]
  have q : ((4540725364850688 : Int) : ℚ) * 2 ^ ((56 : Int) - 52)
      / ((69285970533 : Int) : ℚ) = ((1048576 : Int) : ℚ) := by norm_num
  rw [q, roundDouble_intCast 1048576 (by norm_num) (by norm_num)]

/-- The speed published for 72651605837611 bytes in 69285970533 ms. -/
theorem speed_double_at_boundary :
    speed (onProgressChangedDouble startedSession 72651605837611 72651605837611 69285970533)
      = { value := .val 1, unit := QString.fromUtf8 "MB/s" } := by
  have hd : startedSession.m_downloading = true := by decide
  rw [speed_eq_m_speed,
    onProgressChangedDouble_speed startedSession _ _ _ _ hd rate_double_at_boundary]
  rw [if_neg (by norm_num), if_neg (by norm_num)]
  have q : ((1048576 : Int) : ℚ) / (1024 * 1024) = ((1 : Int) : ℚ) := by norm_num
  rw [divDouble_val _ _ (by norm_num), q, roundDouble_intCast 1 (by norm_num) (by norm_num)]
  norm_num

/-- The quotient `1000.0 / 3.0` is rounded down to the double next to it. -/
theorem third_rounds_down :
    roundDouble (((1 : Int) : ℚ) * 1000 / ((3 : Int) : ℚ))
      = .val ((5864062014805333 : Int) * 2 ^ ((8 : Int) - 52)) := by
  apply roundDouble_eval _ 8 5864062014805333 (by norm_num) (by norm_num) (by norm_num)
    (by norm_num)
  exact roundHalfEven_of_lt_half _ 5864062014805333 (by norm_num) (by norm_num)

/-- The rate that the callback computes for 1 byte in 3 ms. -/
theorem rate_double_of_third :
    QReal.divDouble (QReal.mulDouble (QReal.ofIntDouble 1) (.val 1000)) (QReal.ofIntDouble 3)
      = .val ((5864062014805333 : Int) * 2 ^ ((8 : Int) - 52)) := by
  have c : roundDouble (((1 : Int) : ℚ) * 1000) = .val (((1 : Int) : ℚ) * 1000) := by
    have := roundDouble_intCast 1000 (by norm_num) (by norm_num)
    norm_num at this ⊢
    exact this
  rw [QReal.ofIntDouble, QReal.ofIntDouble, roundDouble_intCast 1 (by norm_num) (by norm_num),
    roundDouble_intCast 3 (by norm_num) (by norm_num), mulDouble_val, c,
    divDouble_val _ _ (by norm_num), third_rounds_down]

/-- The speed published for 1 byte in 3 ms. -/
theorem speed_double_of_third :
    speed (onProgressChangedDouble startedSession 1 1000 3)
      = { value := .val (5864062014805333 / 17592186044416),
          unit := QString.fromUtf8 "B/s" } := by
  have hd : startedSession.m_downloading = true := by decide
  rw [speed_eq_m_speed,
    onProgressChangedDouble_speed startedSession _ _ _ _ hd rate_double_of_third]
  rw [if_pos (by norm_num)]
  norm_num

/-- C9, refuted as stated.  In the started session, for 72651605837611 bytes
in 69285970533 ms the exact rate lies in `[1024, 1024 * 1024)`, where the
claim promises `KB/s`; the product with `1000.0` is rounded up by 8 to
72651605837611008, which is `1024 * 1024` times the elapsed time, so the
program publishes `1 MB/s`.  And for 1 byte in 3 ms the published value is
the double next to `1000 / 3`, not the rate `1000 / 3`. -/
theorem speed_unit_differs_in_double :
    startedSession.m_downloading = true ∧
    (1024 : ℚ) ≤ ((72651605837611 : Int) : ℚ) * 1000 / ((69285970533 : Int) : ℚ) ∧
    ((72651605837611 : Int) : ℚ) * 1000 / ((69285970533 : Int) : ℚ) < 1024 * 1024 ∧
    speed (onProgressChangedDouble startedSession 72651605837611 72651605837611 69285970533)
      = { value := .val 1, unit := QString.fromUtf8 "MB/s" } ∧
    speed (onProgressChangedDouble startedSession 1 1000 3)
      = { value := .val (5864062014805333 / 17592186044416), unit := QString.fromUtf8 "B/s" } ∧
    (5864062014805333 / 17592186044416 : ℚ) ≠ ((1 : Int) : ℚ) * 1000 / ((3 : Int) : ℚ) :=
  ⟨by decide, by norm_num, by norm_num, speed_double_at_boundary, speed_double_of_third,
    by norm_num⟩

/-- C9, amended: in a downloading session, for a received byte count `b` with
`0 <= b` and `b * 1000 < 2 ^ 56` and an elapsed time `e` with
`0 < e < 2 ^ 53` ms, with `rate = b * 1000 / e` and `double(rate)` the double
nearest to it, the progress callback publishes `(double(rate), "B/s")` when
`rate < 1024`, `(double(rate) / 1024, "KB/s")` when
`1024 <= rate < 1024 * 1024`, and `(double(rate) / (1024 * 1024), "MB/s")`
when `1024 * 1024 <= rate`, the two quotients in double arithmetic; the unit
boundaries are exact, and `double(rate)` differs from `rate` by a relative
error of at most `2 ^ (-53)`. -/
theorem speed_unit_selection_double (s : State) (b total e : Int)
    (hd : s.m_downloading = true) (hb : 0 ≤ b) (hb2 : b * 1000 < 2 ^ 56)
    (he : 0 < e) (he2 : e < 2 ^ 53) :
    ((b : ℚ) * 1000 / (e : ℚ) < 1024 →
      speed (onProgressChangedDouble s b total e)
        = { value := roundDouble ((b : ℚ) * 1000 / (e : ℚ)), unit := QString.fromUtf8 "B/s" }) ∧
    (1024 ≤ (b : ℚ) * 1000 / (e : ℚ) → (b : ℚ) * 1000 / (e : ℚ) < 1024 * 1024 →
      speed (onProgressChangedDouble s b total e)
        = { value := QReal.divDouble (roundDouble ((b : ℚ) * 1000 / (e : ℚ))) (.val 1024),
            unit := QString.fromUtf8 "KB/s" }) ∧
    (1024 * 1024 ≤ (b : ℚ) * 1000 / (e : ℚ) →
      speed (onProgressChangedDouble s b total e)
        = { value := QReal.divDouble (roundDouble ((b : ℚ) * 1000 / (e : ℚ)))
              (.val (1024 * 1024)),
            unit := QString.fromUtf8 "MB/s" }) ∧
    ∃ y : ℚ, roundDouble ((b : ℚ) * 1000 / (e : ℚ)) = .val y ∧
      |y - (b : ℚ) * 1000 / (e : ℚ)| ≤ (b : ℚ) * 1000 / (e : ℚ) * (2 : ℚ) ^ (-53 : Int) := by
  obtain ⟨y, hy, t1, t2, t3, t4, herr⟩ := rate_rounding b e hb hb2 he he2
  have hv := rate_double b e hb hb2 he he2
  rw [hy] at hv
  have hsp := onProgressChangedDouble_speed s b total e y hd hv
  refine ⟨?_, ?_, ?_, y, hy, herr⟩
  · intro h
    unfold speed
    rw [hsp, if_pos (t1 h), hy]
  · intro h1 h2
    unfold speed
    rw [hsp, if_neg (not_lt.mpr (t2 h1)), if_pos (t3 h2), hy]
  · intro h
    have h1 : (1024 : ℚ) ≤ (b : ℚ) * 1000 / (e : ℚ) := le_trans (by norm_num) h
    unfold speed
    rw [hsp, if_neg (not_lt.mpr (t2 h1)), if_neg (not_lt.mpr (t4 h)), hy]

/-- C9, amended, at the boundary between `B/s` and `KB/s`, in the started
session: 1024 bytes in 1000 ms are published as `1 KB/s`. -/
theorem speed_unit_selection_double_example :
    speed (onProgressChangedDouble startedSession 1024 4194304 1000)
      = { value := .val 1, unit := QString.fromUtf8 "KB/s" } := by
  have h := (speed_unit_selection_double startedSession 1024 4194304 1000 (by decide)
    (by decide) (by decide) (by decide) (by decide)).2.1 (by norm_num) (by norm_num)
  have r1 : ((1024 : Int) : ℚ) * 1000 / ((1000 : Int) : ℚ) = ((1024 : Int) : ℚ) := by norm_num
  have c1 : roundDouble ((1024 : Int) : ℚ) = .val ((1024 : Int) : ℚ) :=
    roundDouble_intCast 1024 (by norm_num) (by norm_num)
  have c2 : roundDouble ((1 : Int) : ℚ) = .val ((1 : Int) : ℚ) :=
    roundDouble_intCast 1 (by norm_num) (by norm_num)
  have r2 : ((1024 : Int) : ℚ) / 1024 = ((1 : Int) : ℚ) := by norm_num
  rw [h, r1, c1, divDouble_val _ _ (by norm_num), r2, c2]
  norm_num

/-- The bound of `progress()` holds in `double` arithmetic as well: after a
progress callback `progress()` is a number of `[0, 1]`. -/
theorem progress_double_in_unit_interval (s : State) (received total elapsed : Int) :
    ∃ q : ℚ, progress (onProgressChangedDouble s received total elapsed) = .val q ∧
      0 ≤ q ∧ q ≤ 1 :=
  qBound_unit_interval _

/-- The two forms of the progress callback differ in `m_progress` and
`m_speed` only. -/
theorem onProgressChangedDouble_fields (s : State) (received total elapsed : Int) :
    { onProgressChangedDouble s received total elapsed with
        m_progress := (onProgressChanged s received total elapsed).m_progress
        m_speed := (onProgressChanged s received total elapsed).m_speed }
      = onProgressChanged s received total elapsed := by
  unfold onProgressChangedDouble onProgressChanged
  split_ifs <;> rfl

end QDownloader
